import Mathlib

set_option maxRecDepth 100000
set_option maxHeartbeats 1000000

/-!
Verification of the entity-name-resolution engine of the scraper service
(`next.config.js`, business-name utilities section).  The TypeScript
functions are embedded shallowly: strings are `String`/`List Char`,
JavaScript numbers carrying similarity scores are embedded as exact
rationals `ℚ`, and the regular-expression operations used by the source
(punctuation replacement, whitespace collapsing, end-anchored
word-boundary suffix matching, global whole-word replacement) are spelled
out as executable list functions.

Rational arithmetic is written with `mkRat`-based helpers `qadd`, `qmul`,
`qsub` (proved equal to `+`, `*`, `-` below) so that every definition
evaluates by kernel reduction on concrete inputs.
-/

/-! ## Character classes used by the source's regular expressions -/

/-- The whitespace class `\s` of the source's regexes, restricted to the
ASCII range (space, tab, line feed, vertical tab, form feed, carriage
return). -/
def isSpaceJS (c : Char) : Bool :=
  c = ' ' || c = '\t' || c = '\n' || c = '\r' || c = Char.ofNat 11 || c = Char.ofNat 12

/-- The exact punctuation set of the first `replace` in
`normalizeCompanyName`:
the characters `. , - _ ' " ! @ # $ % ^ & * ( ) + = [ ] { } | \ : ; < > ? / ~`
and the backquote. -/
def punctChars : List Char :=
  ['.', ',', '-', '_', Char.ofNat 39, Char.ofNat 34, '!', '@', '#', '$', '%', '^',
   '&', '*', '(', ')', '+', '=', '[', ']', Char.ofNat 123, Char.ofNat 125, '|',
   Char.ofNat 92, ':', ';', '<', '>', '?', '/', '~', Char.ofNat 96]

/-- Membership in the punctuation set of `normalizeCompanyName`. -/
def isPunctJS (c : Char) : Bool := punctChars.contains c

/-- The word-character class `\w` used by the `\b` boundaries of the
source's regexes: ASCII letters, digits and underscore. -/
def isWordChar (c : Char) : Bool :=
  ('a' ≤ c && c ≤ 'z') || ('A' ≤ c && c ≤ 'Z') || ('0' ≤ c && c ≤ '9') || c = '_'

/-! ## List-of-characters embeddings of the JavaScript string operations -/

/-- `String.prototype.trim`: drop leading and trailing whitespace. -/
def jsTrim (l : List Char) : List Char :=
  ((l.dropWhile isSpaceJS).reverse.dropWhile isSpaceJS).reverse

/-- State machine for `replace(/\s+/g, ' ')`: the flag records whether
the scanner is inside a whitespace run whose single replacement space
has already been emitted. -/
def collapseWsAux : Bool → List Char → List Char
  | _, [] => []
  | true, c :: cs =>
    if isSpaceJS c then collapseWsAux true cs else c :: collapseWsAux false cs
  | false, c :: cs =>
    if isSpaceJS c then ' ' :: collapseWsAux true cs else c :: collapseWsAux false cs

/-- The `replace(/\s+/g, ' ')` step: every maximal run of whitespace
becomes a single space. -/
def collapseWs (l : List Char) : List Char := collapseWsAux false l

/-- The `replace(/[punct]/g, ' ')` step: each punctuation character
becomes a space, all other characters are kept. -/
def punctToSpace (c : Char) : Char := if isPunctJS c then ' ' else c

/-- `String.prototype.split(' ')`, accumulator form. -/
def splitSpAux (cur : List Char) : List Char → List (List Char)
  | [] => [cur.reverse]
  | c :: cs => if c = ' ' then cur.reverse :: splitSpAux [] cs else splitSpAux (c :: cur) cs

/-- `String.prototype.split(' ')`: split on single spaces, keeping empty
pieces, with `split` of the empty string equal to `[[]]`. -/
def splitSp (l : List Char) : List (List Char) := splitSpAux [] l

/-- `Array.prototype.join(' ')`. -/
def joinSp : List (List Char) → List Char
  | [] => []
  | [w] => w
  | w :: ws => w ++ ' ' :: joinSp ws

/-- `String.prototype.includes`: `jsIncludes s sub` holds when `sub`
occurs contiguously inside `s`. -/
def jsIncludes : List Char → List Char → Bool
  | [], sub => sub.isEmpty
  | c :: t, sub => sub.isPrefixOf (c :: t) || jsIncludes t sub

/-- Fuel-indexed scanner for plain global replacement; each step consumes
at least one character, so fuel equal to the input length suffices. -/
def replaceAllAux (pat repl : List Char) : ℕ → List Char → List Char
  | 0, l => l
  | _ + 1, [] => []
  | fuel + 1, c :: cs =>
    if pat ≠ [] ∧ pat.isPrefixOf (c :: cs) then
      repl ++ replaceAllAux pat repl fuel ((c :: cs).drop pat.length)
    else
      c :: replaceAllAux pat repl fuel cs

/-- Global plain-text replacement `replace(/pat/g, repl)` (no word
boundaries): scan left to right, replace non-overlapping occurrences,
continue after each match.  A degenerate empty pattern never matches. -/
def replaceAllL (pat repl l : List Char) : List Char :=
  replaceAllAux pat repl l.length l

/-- Fuel-indexed scanner for word-boundary global replacement
`replace(/\bpat\b/g, repl)`: a match additionally requires a non-word
character (or the string edge) on both sides; scanning continues after
the matched region of the original string, so the character remembered
as the left context of the next position is the last character of the
matched pattern. -/
def replaceWordAux (pat repl : List Char) : ℕ → Option Char → List Char → List Char
  | 0, _, l => l
  | _ + 1, _, [] => []
  | fuel + 1, prev, c :: cs =>
    if pat ≠ [] ∧ pat.isPrefixOf (c :: cs) ∧
        (match prev with | none => true | some p => !isWordChar p) = true ∧
        (match ((c :: cs).drop pat.length).head? with
          | none => true | some d => !isWordChar d) = true then
      repl ++ replaceWordAux pat repl fuel (some (pat.getLastD c)) ((c :: cs).drop pat.length)
    else
      c :: replaceWordAux pat repl fuel (some c) cs

/-- Word-boundary global replacement `replace(/\bpat\b/g, repl)`. -/
def replaceWordL (pat repl l : List Char) : List Char :=
  replaceWordAux pat repl l.length none l

/-! ## Kernel-computable rational helpers -/

/-- Addition on `ℚ` through `mkRat`, so that concrete values reduce in the
kernel. -/
def qadd (a b : ℚ) : ℚ := mkRat (a.num * b.den + b.num * a.den) (a.den * b.den)

/-- Multiplication on `ℚ` through `mkRat`. -/
def qmul (a b : ℚ) : ℚ := mkRat (a.num * b.num) (a.den * b.den)

/-- Subtraction on `ℚ` through `mkRat`. -/
def qsub (a b : ℚ) : ℚ := mkRat (a.num * b.den - b.num * a.den) (a.den * b.den)

/-! ## The Normalizer (`normalizeCompanyName`) -/

/-- `normalizeCompanyName` on character lists: lowercase, punctuation to
spaces, whitespace runs collapsed, ends trimmed. -/
def normalizeL (l : List Char) : List Char :=
  jsTrim (collapseWs ((l.map Char.toLower).map punctToSpace))

/-- `normalizeCompanyName` from the source: lowercase the name, replace
every punctuation character by a space, collapse whitespace runs to one
space and trim the ends. -/
def normalizeCompanyName (name : String) : String := ⟨normalizeL name.data⟩

/-! ## The SuffixStripper (`removeBusinessSuffixes`, `extractCoreName`) -/

/-- The suffix table of the source, in source order. -/
def BUSINESS_SUFFIXES : List String :=
  ["limited liability company", "limited liability corp", "incorporated",
   "corporation", "company", "limited", "enterprise", "enterprises",
   "services", "service", "group", "holdings", "solutions", "partners",
   "associates",
   "l.l.c.", "l.l.c", "llc", "inc.", "inc", "corp.", "corp", "co.", "co",
   "ltd.", "ltd", "l.l.p.", "llp", "p.l.l.c.", "pllc", "p.c.", "pc",
   "p.a.", "pa", "d.b.a.", "d/b/a", "dba"]

/-- Stable insertion of a string into a list sorted by decreasing length:
the inserted element goes in front of the first element that is not
longer, which is how a stable sort with comparator
`(a, b) => b.length - a.length` orders equal lengths. -/
def insertLenDesc (x : String) : List String → List String
  | [] => [x]
  | y :: ys => if y.length ≤ x.length then x :: y :: ys else y :: insertLenDesc x ys

/-- Stable sort by decreasing length, the `[...BUSINESS_SUFFIXES].sort((a, b) => b.length - a.length)`
of the source. -/
def sortLenDesc (l : List String) : List String := l.foldr insertLenDesc []

/-- The length-sorted suffix table the source's loop iterates over. -/
def sortedSuffixes : List String := sortLenDesc BUSINESS_SUFFIXES

/-- One iteration of the suffix-stripping loop:
`normalized.replace(new RegExp("\\b" + suffix + "\\s*$", "i"), '').trim()`.
The regex matches the suffix at the end of the string behind a word
boundary; on a match the suffix is cut off and the remainder trimmed
(the `\s*` tail is vacuous because the running string is always
trimmed). -/
def stripSuffixOnce (normalized : List Char) (suffix : String) : List Char :=
  let pre := normalized.take (normalized.length - suffix.data.length)
  if suffix.data.isSuffixOf normalized &&
      (match pre.getLast? with | none => true | some c => !isWordChar c) then
    jsTrim pre
  else normalized

/-- `removeBusinessSuffixes` from the source: normalize, then apply each
suffix pattern once, longest suffix first, and trim. -/
def removeBusinessSuffixes (name : String) : String :=
  ⟨jsTrim (sortedSuffixes.foldl stripSuffixOnce (normalizeCompanyName name).data)⟩

/-- The filler-word table `IGNORABLE_WORDS` of the source. -/
def IGNORABLE_WORDS : List String :=
  ["the", "and", "&", "of", "at", "in", "on", "for", "a", "an"]

/-- `removeIgnorableWords` from the source: split on spaces, drop the
words whose lowercase form is in `IGNORABLE_WORDS`, join with spaces. -/
def removeIgnorableWords (name : String) : String :=
  ⟨joinSp ((splitSp name.data).filter
    (fun w => !(IGNORABLE_WORDS.contains ⟨w.map Char.toLower⟩)))⟩

/-- `extractCoreName` from the source: normalize, strip business
suffixes, remove filler words, trim. -/
def extractCoreName (name : String) : String :=
  ⟨jsTrim (removeIgnorableWords (removeBusinessSuffixes (normalizeCompanyName name))).data⟩

/-! ## The VariationGenerator (`generateNameVariations`) -/

/-- `Set.prototype.add` on an insertion-ordered set of strings. -/
def setAdd (l : List String) (s : String) : List String :=
  if s ∈ l then l else l ++ [s]

/-- `String.prototype.trim` on strings. -/
def jsTrimS (s : String) : String := ⟨jsTrim s.data⟩

/-- The common-suffix list of variation rule 3. -/
def commonSuffixes : List String := ["LLC", "Inc", "Corp", "Co", "Inc.", "LLC."]

/-- The abbreviation map of variation rule 5, in source (insertion)
order. -/
def abbreviationMap : List (String × List String) :=
  [("saint", ["st", "st."]), ("st", ["saint"]),
   ("mount", ["mt", "mt."]), ("mt", ["mount"]),
   ("doctor", ["dr", "dr."]), ("dr", ["doctor"]),
   ("mister", ["mr", "mr."]), ("mr", ["mister"])]

/-- Pool after variation rules 1 and 2: the trimmed original and the
core name. -/
def poolV2 (companyName : String) : List String :=
  setAdd (setAdd [] (jsTrimS companyName)) (extractCoreName companyName)

/-- Pool after variation rule 3: the core plus each common suffix, both
space-joined and comma-joined. -/
def poolV3 (companyName : String) : List String :=
  commonSuffixes.foldl
    (fun acc suffix =>
      setAdd (setAdd acc (extractCoreName companyName ++ " " ++ suffix))
        (extractCoreName companyName ++ ", " ++ suffix)) (poolV2 companyName)

/-- Pool after the first half of variation rule 4: swap " and " for " & ". -/
def poolV4 (companyName : String) : List String :=
  if jsIncludes (extractCoreName companyName).data " and ".data then
    setAdd (poolV3 companyName)
      ⟨replaceAllL " and ".data " & ".data (extractCoreName companyName).data⟩
  else poolV3 companyName

/-- Pool after the second half of variation rule 4: swap " & " for " and ". -/
def poolV5 (companyName : String) : List String :=
  if jsIncludes (extractCoreName companyName).data " & ".data then
    setAdd (poolV4 companyName)
      ⟨replaceAllL " & ".data " and ".data (extractCoreName companyName).data⟩
  else poolV4 companyName

/-- Pool after variation rule 5: whole-word abbreviation substitutions. -/
def poolV6 (companyName : String) : List String :=
  abbreviationMap.foldl
    (fun acc entry =>
      if jsIncludes (extractCoreName companyName).data entry.1.data then
        entry.2.foldl
          (fun acc2 ab =>
            setAdd acc2 ⟨replaceWordL entry.1.data ab.data (extractCoreName companyName).data⟩)
          acc
      else acc) (poolV5 companyName)

/-- The variation set of `generateNameVariations`, built in insertion
order (original, core, core plus common suffixes both
space-joined and comma-joined, and/& swaps, whole-word abbreviation
substitutions, first-2 and first-3 word prefixes of long names).  The
source also computes an unused local `normalized`. -/
def variationPool (companyName : String) : List String :=
  if ((splitSp (extractCoreName companyName).data).filter (fun w => w.length > 1)).length > 3 then
    setAdd (setAdd (poolV6 companyName)
        ⟨joinSp (((splitSp (extractCoreName companyName).data).filter
          (fun w => w.length > 1)).take 2)⟩)
      ⟨joinSp (((splitSp (extractCoreName companyName).data).filter
        (fun w => w.length > 1)).take 3)⟩
  else poolV6 companyName

/-- `generateNameVariations` from the source, final step: drop empty
strings from the variation set and trim each survivor. -/
def generateNameVariations (companyName : String) : List String :=
  ((variationPool companyName).filter (fun v => v.length > 0)).map jsTrimS

/-! ## The Scorer (`levenshteinDistance`, `calculateSimilarity`,
`containsAllWords`, `calculateMatchScore`) -/

/-- The dynamic-programming table of `levenshteinDistance`:
`levDP s t i j` is the value `dp[i][j]` filled by the source's loops,
defined by the same recurrence (`dp[i][0] = i`, `dp[0][j] = j`, and the
match/1+min step comparing `str1[i-1]` with `str2[j-1]`). -/
def levDP (s t : List Char) : ℕ → ℕ → ℕ
  | 0, j => j
  | i + 1, 0 => i + 1
  | i + 1, j + 1 =>
    if s.getD i ' ' = t.getD j ' ' then levDP s t i j
    else 1 + min (levDP s t i (j + 1)) (min (levDP s t (i + 1) j) (levDP s t i j))
  termination_by i j => i + j

/-- The inner loop (over `j`) of the source's table fill, producing the
entries `dp[i+1][j+1]` for the remaining columns: `trest` holds the
characters `str2[j..]`, `prest` the previous-row entries `dp[i][j+1..]`,
`diag` is `dp[i][j]` and `left` is `dp[i+1][j]`. -/
def levRowStep (ci : Char) : List Char → List ℕ → ℕ → ℕ → List ℕ
  | [], _, _, _ => []
  | _ :: _, [], _, _ => []
  | cj :: trest, pj :: prest, diag, left =>
    let q := if ci = cj then diag else 1 + min pj (min left diag)
    q :: levRowStep ci trest prest pj q

/-- One iteration of the outer loop (over `i`): build row `dp[i+1]` from
row `dp[i]`, starting with the first-column entry `dp[i+1][0] = i + 1`. -/
def levNextRow (ci : Char) (t : List Char) (prevRow : List ℕ) (i1 : ℕ) : List ℕ :=
  i1 :: levRowStep ci t prevRow.tail (prevRow.headD 0) i1

/-- Run the outer loop over the remaining characters of `str1`,
threading the current row and the next row index. -/
def levFinalRow (t : List Char) : List Char → List ℕ → ℕ → List ℕ
  | [], row, _ => row
  | ci :: srest, row, i1 => levFinalRow t srest (levNextRow ci t row i1) (i1 + 1)

/-- `levenshteinDistance` from the source: fill the dynamic-programming
table row by row starting from `dp[0] = [0, 1, ..., n]` and return the
bottom-right entry `dp[m][n]` (`levenshteinDistance_eq_levDP` below
certifies that this tabulation computes exactly the `levDP`
recurrence). -/
def levenshteinDistance (str1 str2 : String) : ℕ :=
  (levFinalRow str2.data str1.data (List.range (str2.data.length + 1)) 1).getLastD 0

/-- `calculateSimilarity` from the source: lowercase both strings, return
`1` on equality or when both are empty, otherwise
`1 - distance / maxLength`. -/
def calculateSimilarity (str1 str2 : String) : ℚ :=
  let s1 : String := ⟨str1.data.map Char.toLower⟩
  let s2 : String := ⟨str2.data.map Char.toLower⟩
  if s1 = s2 then 1
  else
    let maxLength := max s1.data.length s2.data.length
    if maxLength = 0 then 1
    else qsub 1 (mkRat (levenshteinDistance s1 s2) maxLength)

/-- `containsAllWords` from the source: at least 80% of the needle's
significant words (length above 2, not filler) must occur among the
haystack's words (length above 1), where occurrence is exact membership
or substring containment in either direction. -/
def containsAllWords (haystack needle : String) : Bool :=
  let haystackWords := (splitSp (haystack.data.map Char.toLower)).filter (fun w => w.length > 1)
  let needleWords := (splitSp (needle.data.map Char.toLower)).filter
    (fun w => w.length > 2 && !(IGNORABLE_WORDS.contains ⟨w⟩))
  if needleWords.length = 0 then false
  else
    let matchCount := (needleWords.filter (fun word =>
      haystackWords.contains word ||
      haystackWords.any (fun hw => jsIncludes hw word || jsIncludes word hw))).length
    decide (mkRat 8 10 ≤ mkRat matchCount needleWords.length)

/-- The score/classification pair returned by the Scorer. -/
structure MatchScore where
  score : ℚ
  matchType : String
  deriving DecidableEq, Repr

/-- `calculateMatchScore` from the source: the ordered cascade of rules
(exact, core-exact, containment in both directions, word match in both
directions, high and medium fuzzy similarity, partial word overlap, low
similarity), each with its exact score arithmetic. -/
def calculateMatchScore (searchName resultName : String) : MatchScore :=
  let searchCore := extractCoreName searchName
  let resultCore := extractCoreName resultName
  let searchNormalized := normalizeCompanyName searchName
  let resultNormalized := normalizeCompanyName resultName
  if searchNormalized = resultNormalized then ⟨1, "exact"⟩
  else if searchCore = resultCore then ⟨mkRat 98 100, "core_exact"⟩
  else if jsIncludes resultCore.data searchCore.data then
    let ratio : ℚ := mkRat searchCore.data.length resultCore.data.length
    ⟨qadd (mkRat 90 100) (qmul ratio (mkRat 8 100)), "search_in_result"⟩
  else if jsIncludes searchCore.data resultCore.data then
    let ratio : ℚ := mkRat resultCore.data.length searchCore.data.length
    ⟨qadd (mkRat 85 100) (qmul ratio (mkRat 10 100)), "result_in_search"⟩
  else if containsAllWords resultCore searchCore then ⟨mkRat 85 100, "word_match"⟩
  else if containsAllWords searchCore resultCore then ⟨mkRat 82 100, "reverse_word_match"⟩
  else
    let coreSimilarity := calculateSimilarity searchCore resultCore
    if mkRat 85 100 ≤ coreSimilarity then ⟨qmul coreSimilarity (mkRat 95 100), "fuzzy_high"⟩
    else if mkRat 70 100 ≤ coreSimilarity then ⟨qmul coreSimilarity (mkRat 90 100), "fuzzy_medium"⟩
    else
      let searchWords := (splitSp searchCore.data).filter (fun w => w.length > 2)
      let resultWords := (splitSp resultCore.data).filter (fun w => w.length > 2)
      if searchWords.length > 0 && resultWords.length > 0 then
        let commonWords := searchWords.filter (fun sw =>
          resultWords.any (fun rw => sw == rw || jsIncludes sw rw || jsIncludes rw sw))
        let overlapRatio : ℚ := mkRat commonWords.length (max searchWords.length resultWords.length)
        if mkRat 5 10 ≤ overlapRatio then
          ⟨qadd (mkRat 60 100) (qmul overlapRatio (mkRat 25 100)), "partial_overlap"⟩
        else ⟨qmul coreSimilarity (mkRat 5 10), "low_similarity"⟩
      else ⟨qmul coreSimilarity (mkRat 5 10), "low_similarity"⟩

/-! ## The Selector (`findBestMatch`) -/

/-- A parsed search-result card; only the company name takes part in the
matching logic (the remaining display fields of the source's
`ParsedResultCard` are opaque to the engine). -/
structure ParsedResultCard where
  companyName : String
  deriving DecidableEq, Repr

/-- One row of the `allScores` diagnostic table. -/
structure ScoredCandidate where
  name : String
  score : ℚ
  matchType : String
  deriving DecidableEq, Repr

/-- The outcome of `findBestMatch`. -/
structure BestMatchOutcome where
  match? : Option ParsedResultCard
  score : ℚ
  matchType : String
  allScores : List ScoredCandidate
  deriving DecidableEq, Repr

/-- The default threshold `MIN_MATCH_SCORE` of the source. -/
def MIN_MATCH_SCORE : ℚ := mkRat 65 100

/-- The per-candidate inner loop of `findBestMatch`: score the candidate
name against every variation and keep the best score with its match
type, replacing only on strict improvement. -/
def bestVariationScore (nameVariations : List String) (resultName : String) : ℚ × String :=
  nameVariations.foldl
    (fun acc variation =>
      let m := calculateMatchScore variation resultName
      if acc.1 < m.score then (m.score, m.matchType) else acc)
    (0, "")

/-- Stable descending insertion by score, matching the stable
`allScores.sort((a, b) => b.score - a.score)` of the source. -/
def insertScoreDesc (x : ScoredCandidate) : List ScoredCandidate → List ScoredCandidate
  | [] => [x]
  | y :: ys => if y.score ≤ x.score then x :: y :: ys else y :: insertScoreDesc x ys

/-- Stable sort of the score table by descending score. -/
def sortScoresDesc (l : List ScoredCandidate) : List ScoredCandidate := l.foldr insertScoreDesc []

/-- The candidate loop of `findBestMatch`, threading the running best
match and accumulating the `allScores` table. -/
def findBestMatchGo (nameVariations : List String) (minScore : ℚ) :
    List ParsedResultCard → Option ParsedResultCard → ℚ → String → List ScoredCandidate →
    Option ParsedResultCard × ℚ × String × List ScoredCandidate
  | [], best, bestScore, bestType, acc => (best, bestScore, bestType, acc)
  | r :: rest, best, bestScore, bestType, acc =>
    let rb := bestVariationScore nameVariations r.companyName
    let acc' := acc ++ [⟨r.companyName, rb.1, rb.2⟩]
    if rb.1 ≥ minScore ∧ rb.1 > bestScore then
      findBestMatchGo nameVariations minScore rest (some r) rb.1 rb.2 acc'
    else
      findBestMatchGo nameVariations minScore rest best bestScore bestType acc'

/-- `findBestMatch` from the source: generate the query's name
variations once, take each candidate's best score over all variations,
record each candidate in the score table, keep the running best
candidate at or above `minScore` (replaced only on strict improvement),
and return it with the score table sorted by descending score. -/
def findBestMatch (searchName : String) (results : List ParsedResultCard) (minScore : ℚ) :
    BestMatchOutcome :=
  let nameVariations := generateNameVariations searchName
  let (best, bestScore, bestType, allScores) :=
    findBestMatchGo nameVariations minScore results none 0 "" []
  ⟨best, bestScore, bestType, sortScoresDesc allScores⟩

/-! ## Reference definition from the specification -/

/-- The classic recursive unit-cost edit distance, the reference
definition the specification describes (`editDistance is classic
dynamic-programming edit distance over unit insertion/deletion/
substitution cost`). -/
def levRef : List Char → List Char → ℕ
  | [], t => t.length
  | s, [] => s.length
  | a :: s, b :: t =>
    if a = b then levRef s t
    else 1 + min (levRef s (b :: t)) (min (levRef (a :: s) t) (levRef s t))

/-! ## Bridging lemmas for the rational helpers -/

theorem qadd_eq (a b : ℚ) : qadd a b = a + b := by
  rw [qadd, Rat.mkRat_eq_div]
  push_cast
  conv_rhs => rw [← Rat.num_div_den a, ← Rat.num_div_den b]
  have ha : (a.den : ℚ) ≠ 0 := by exact_mod_cast a.den_nz
  have hb : (b.den : ℚ) ≠ 0 := by exact_mod_cast b.den_nz
  field_simp

theorem qmul_eq (a b : ℚ) : qmul a b = a * b := by
  rw [qmul, Rat.mkRat_eq_div]
  push_cast
  conv_rhs => rw [← Rat.num_div_den a, ← Rat.num_div_den b]
  have ha : (a.den : ℚ) ≠ 0 := by exact_mod_cast a.den_nz
  have hb : (b.den : ℚ) ≠ 0 := by exact_mod_cast b.den_nz
  field_simp

theorem qsub_eq (a b : ℚ) : qsub a b = a - b := by
  rw [qsub, Rat.mkRat_eq_div]
  push_cast
  conv_rhs => rw [← Rat.num_div_den a, ← Rat.num_div_den b]
  have ha : (a.den : ℚ) ≠ 0 := by exact_mod_cast a.den_nz
  have hb : (b.den : ℚ) ≠ 0 := by exact_mod_cast b.den_nz
  field_simp
  ring

theorem mkRat_nat_eq (m n : ℕ) : mkRat m n = (m : ℚ) / (n : ℚ) := by
  rw [Rat.mkRat_eq_div]
  norm_num

/-! ## Character lemmas -/

theorem toLower_toLower (c : Char) : c.toLower.toLower = c.toLower := by
  show Char.toLower (Char.toLower c) = Char.toLower c
  unfold Char.toLower
  by_cases h : c.toNat ≥ 65 ∧ c.toNat ≤ 90
  · rw [if_pos h]
    obtain ⟨h1, h2⟩ := h
    have hval : (Char.ofNat (c.toNat + 32)).toNat = c.toNat + 32 := by
      generalize c.toNat = n at h1 h2 ⊢
      interval_cases n <;> decide
    rw [hval, if_neg (by omega)]
  · rw [if_neg h, if_neg h]

theorem toLower_punctToSpace_fix (x : Char) :
    Char.toLower (punctToSpace (Char.toLower x)) = punctToSpace (Char.toLower x) := by
  rw [punctToSpace]
  by_cases h : isPunctJS (Char.toLower x)
  · rw [if_pos h]; decide
  · rw [if_neg h]; exact toLower_toLower x

theorem punctToSpace_not_punct (x : Char) : isPunctJS (punctToSpace x) = false := by
  rw [punctToSpace]
  by_cases h : isPunctJS x
  · rw [if_pos h]; decide
  · rw [if_neg h]; simpa using h

/-! ## Lemmas about the whitespace collapse -/

theorem mem_collapseWsAux {c : Char} :
    ∀ (l : List Char) (b : Bool), c ∈ collapseWsAux b l → c = ' ' ∨ c ∈ l := by
  intro l
  induction l with
  | nil => intro b h; cases b <;> simp [collapseWsAux] at h
  | cons x xs ih =>
      intro b h
      cases b <;> rw [collapseWsAux] at h <;> by_cases hx : isSpaceJS x <;>
        simp only [hx, if_true, if_false, Bool.false_eq_true, List.mem_cons] at h
      · rcases h with h | h
        · exact Or.inl h
        · rcases ih true h with h' | h'
          · exact Or.inl h'
          · exact Or.inr (List.mem_cons_of_mem _ h')
      · rcases h with h | h
        · exact Or.inr (by simp [h])
        · rcases ih false h with h' | h'
          · exact Or.inl h'
          · exact Or.inr (List.mem_cons_of_mem _ h')
      · rcases ih true h with h' | h'
        · exact Or.inl h'
        · exact Or.inr (List.mem_cons_of_mem _ h')
      · rcases h with h | h
        · exact Or.inr (by simp [h])
        · rcases ih false h with h' | h'
          · exact Or.inl h'
          · exact Or.inr (List.mem_cons_of_mem _ h')

theorem head_collapseWsAux_true :
    ∀ (l : List Char) (d : Char), (collapseWsAux true l).head? = some d → isSpaceJS d = false := by
  intro l
  induction l with
  | nil => intro d h; simp [collapseWsAux] at h
  | cons x xs ih =>
      intro d h
      rw [collapseWsAux] at h
      by_cases hx : isSpaceJS x
      · rw [if_pos hx] at h
        exact ih d h
      · rw [if_neg hx] at h
        simp only [List.head?_cons, Option.some.injEq] at h
        cases h
        simpa using hx

/-- The pairwise relation `no two adjacent whitespace characters`. -/
def noWsPair (a b : Char) : Prop := isSpaceJS a = true → isSpaceJS b = false

theorem chain_collapseWsAux : ∀ (l : List Char) (b : Bool), (collapseWsAux b l).Chain' noWsPair := by
  intro l
  induction l with
  | nil => intro b; cases b <;> simp [collapseWsAux]
  | cons x xs ih =>
      intro b
      cases b <;> rw [collapseWsAux] <;> by_cases hx : isSpaceJS x <;>
        simp only [hx, if_true, if_false, Bool.false_eq_true]
      · rw [List.chain'_cons']
        refine ⟨?_, ih true⟩
        intro y hy _
        exact head_collapseWsAux_true xs y hy
      · rw [List.chain'_cons']
        refine ⟨?_, ih false⟩
        intro y hy hsp
        exact absurd hsp (by simpa using hx)
      · exact ih true
      · rw [List.chain'_cons']
        refine ⟨?_, ih false⟩
        intro y hy hsp
        exact absurd hsp (by simpa using hx)

theorem collapseWsAux_fix :
    ∀ (l : List Char), (∀ c ∈ l, isSpaceJS c = true → c = ' ') → l.Chain' noWsPair →
      collapseWsAux false l = l ∧
        ((∀ d, l.head? = some d → isSpaceJS d = false) → collapseWsAux true l = l) := by
  intro l
  induction l with
  | nil => intro _ _; exact ⟨rfl, fun _ => rfl⟩
  | cons x xs ih =>
      intro hblank hchain
      have hxs_blank : ∀ c ∈ xs, isSpaceJS c = true → c = ' ' :=
        fun c hc => hblank c (List.mem_cons_of_mem _ hc)
      have hxs_chain : xs.Chain' noWsPair := hchain.tail
      obtain ⟨ihf, iht⟩ := ih hxs_blank hxs_chain
      constructor
      · rw [collapseWsAux]
        by_cases hx : isSpaceJS x
        · rw [if_pos hx]
          have hx' : x = ' ' := hblank x (List.mem_cons_self x xs) hx
          have hxs_head : ∀ d, xs.head? = some d → isSpaceJS d = false := by
            intro d hd
            rw [List.chain'_cons'] at hchain
            exact hchain.1 d hd hx
          rw [iht hxs_head, hx']
        · rw [if_neg hx, ihf]
      · intro hhead
        rw [collapseWsAux]
        have hx : isSpaceJS x = false := hhead x rfl
        rw [hx]
        simp only [Bool.false_eq_true, if_false]
        rw [ihf]

/-- `collapseWsAux` output: every whitespace character is a plain space
(whitespace in the input is only ever emitted as the single replacement
space). -/
theorem spaces_blank_collapseWsAux :
    ∀ (l : List Char) (b : Bool) (c : Char), c ∈ collapseWsAux b l →
      isSpaceJS c = true → c = ' ' := by
  intro l
  induction l with
  | nil => intro b c h; cases b <;> simp [collapseWsAux] at h
  | cons x xs ih =>
      intro b c h hsp
      cases b <;> rw [collapseWsAux] at h <;> by_cases hx : isSpaceJS x <;>
        simp only [hx, if_true, if_false, Bool.false_eq_true, List.mem_cons] at h
      · rcases h with h | h
        · exact h
        · exact ih true c h hsp
      · rcases h with h | h
        · subst h; exact absurd hsp (by simpa using hx)
        · exact ih false c h hsp
      · exact ih true c h hsp
      · rcases h with h | h
        · subst h; exact absurd hsp (by simpa using hx)
        · exact ih false c h hsp

/-! ## Lemmas about trimming -/

theorem head_dropWhile (p : Char → Bool) :
    ∀ (l : List Char) (d : Char), (l.dropWhile p).head? = some d → p d = false := by
  intro l
  induction l with
  | nil => intro d h; simp at h
  | cons x xs ih =>
      intro d h
      rw [List.dropWhile_cons] at h
      by_cases hp : p x
      · rw [if_pos hp] at h
        exact ih d h
      · rw [if_neg hp] at h
        simp only [List.head?_cons, Option.some.injEq] at h
        cases h
        simpa using hp

theorem dropWhile_fix (p : Char → Bool) (l : List Char)
    (h : ∀ d, l.head? = some d → p d = false) : l.dropWhile p = l := by
  cases l with
  | nil => rfl
  | cons x xs =>
      rw [List.dropWhile_cons, if_neg]
      simp [h x rfl]

theorem jsTrim_isInfix (l : List Char) : jsTrim l <:+: l := by
  rw [jsTrim]
  have h1 : l.dropWhile isSpaceJS <:+ l := by apply List.dropWhile_suffix
  have h2 : (l.dropWhile isSpaceJS).reverse.dropWhile isSpaceJS <:+
      (l.dropWhile isSpaceJS).reverse := by apply List.dropWhile_suffix
  have h3 : ((l.dropWhile isSpaceJS).reverse.dropWhile isSpaceJS).reverse <+:
      l.dropWhile isSpaceJS := by
    have h4 := List.reverse_prefix.mpr h2
    simpa using h4
  exact h3.isInfix.trans h1.isInfix

theorem jsTrim_sublist (l : List Char) : (jsTrim l).Sublist l := (jsTrim_isInfix l).sublist

theorem jsTrim_head (l : List Char) (d : Char) :
    (jsTrim l).head? = some d → isSpaceJS d = false := by
  intro h
  rw [jsTrim] at h
  set u := l.dropWhile isSpaceJS with hu
  have hpre : (u.reverse.dropWhile isSpaceJS).reverse <+: u := by
    have h2 : u.reverse.dropWhile isSpaceJS <:+ u.reverse := by apply List.dropWhile_suffix
    have h4 := List.reverse_prefix.mpr h2
    simpa using h4
  obtain ⟨t, ht⟩ := hpre
  have : u.head? = some d := by
    cases hcase : (u.reverse.dropWhile isSpaceJS).reverse with
    | nil => rw [hcase] at h; simp at h
    | cons a rest =>
        rw [hcase] at h
        simp only [List.head?_cons, Option.some.injEq] at h
        cases h
        rw [← ht, hcase]
        simp
  exact head_dropWhile isSpaceJS l d this

theorem jsTrim_last (l : List Char) (d : Char) :
    (jsTrim l).getLast? = some d → isSpaceJS d = false := by
  intro h
  rw [jsTrim, List.getLast?_reverse] at h
  exact head_dropWhile isSpaceJS _ d h

theorem jsTrim_fix (l : List Char)
    (hh : ∀ d, l.head? = some d → isSpaceJS d = false)
    (hl : ∀ d, l.getLast? = some d → isSpaceJS d = false) : jsTrim l = l := by
  rw [jsTrim, dropWhile_fix isSpaceJS l hh, dropWhile_fix isSpaceJS l.reverse
    (by intro d hd; rw [List.head?_reverse] at hd; exact hl d hd), List.reverse_reverse]

theorem jsTrim_idem (l : List Char) : jsTrim (jsTrim l) = jsTrim l :=
  jsTrim_fix _ (jsTrim_head l) (jsTrim_last l)

/-! ## Idempotence of the Normalizer -/

theorem mapFixed {f : Char → Char} :
    ∀ (l : List Char), (∀ c ∈ l, f c = c) → l.map f = l := by
  intro l
  induction l with
  | nil => intro _; rfl
  | cons x xs ih =>
      intro h
      rw [List.map_cons, h x (List.mem_cons_self x xs), ih (fun c hc => h c (List.mem_cons_of_mem _ hc))]

theorem punctToSpace_idem (c : Char) : punctToSpace (punctToSpace c) = punctToSpace c := by
  conv_lhs => rw [punctToSpace]
  rw [if_neg]
  simp [punctToSpace_not_punct]

theorem mem_normalizeL {c : Char} {l : List Char} (h : c ∈ normalizeL l) :
    c = ' ' ∨ ∃ x, c = punctToSpace (Char.toLower x) := by
  rw [normalizeL] at h
  have h1 : c ∈ collapseWs ((l.map Char.toLower).map punctToSpace) :=
    (jsTrim_sublist _).subset h
  rcases mem_collapseWsAux _ false h1 with h2 | h2
  · exact Or.inl h2
  · simp only [List.mem_map] at h2
    obtain ⟨y, ⟨x, _, hx⟩, hy⟩ := h2
    exact Or.inr ⟨x, by rw [← hy, ← hx]⟩

theorem normalizeL_toLower_fix (l : List Char) :
    (normalizeL l).map Char.toLower = normalizeL l := by
  apply mapFixed
  intro c hc
  rcases mem_normalizeL hc with h | ⟨x, hx⟩
  · rw [h]; decide
  · rw [hx]; exact toLower_punctToSpace_fix x

theorem normalizeL_punct_fix (l : List Char) :
    (normalizeL l).map punctToSpace = normalizeL l := by
  apply mapFixed
  intro c hc
  rcases mem_normalizeL hc with h | ⟨x, hx⟩
  · rw [h]; decide
  · rw [hx]; exact punctToSpace_idem _

theorem normalizeL_spaces_blank (l : List Char) :
    ∀ c ∈ normalizeL l, isSpaceJS c = true → c = ' ' := by
  intro c hc hs
  rw [normalizeL] at hc
  exact spaces_blank_collapseWsAux _ false c ((jsTrim_sublist _).subset hc) hs

theorem normalizeL_chain (l : List Char) : (normalizeL l).Chain' noWsPair := by
  rw [normalizeL]
  exact List.Chain'.infix (chain_collapseWsAux _ false) (jsTrim_isInfix _)

theorem normalizeL_collapse_fix (l : List Char) : collapseWs (normalizeL l) = normalizeL l :=
  (collapseWsAux_fix _ (normalizeL_spaces_blank l) (normalizeL_chain l)).1

theorem normalizeL_trim_fix (l : List Char) : jsTrim (normalizeL l) = normalizeL l := by
  rw [normalizeL, jsTrim_idem]

theorem normalizeL_idem (l : List Char) : normalizeL (normalizeL l) = normalizeL l := by
  conv_lhs => rw [normalizeL]
  rw [normalizeL_toLower_fix, normalizeL_punct_fix, normalizeL_collapse_fix,
    normalizeL_trim_fix]

/-- Strings with equal character data are equal. -/
theorem strExt {s t : String} (h : s.data = t.data) : s = t := by
  cases s; cases t; exact congrArg String.mk h

/-- C7: normalization is idempotent: normalizing a normalized name is a
no-op, for every input string. -/
theorem claim_C7_normalize_idempotent (x : String) :
    normalizeCompanyName (normalizeCompanyName x) = normalizeCompanyName x := by
  apply strExt
  show normalizeL (normalizeL x.data) = normalizeL x.data
  exact normalizeL_idem x.data

/-- C8: self-match: for every string that is non-empty after
normalization, scoring it against itself yields score 1.0 with match
type `exact` (rule 1 of the cascade fires on equal normalized forms). -/
theorem claim_C8_self_match (x : String) (h : normalizeCompanyName x ≠ "") :
    calculateMatchScore x x = ⟨1, "exact"⟩ := by
  rw [calculateMatchScore]
  rw [if_pos rfl]

/-- Witness for C8 at the concrete input `"Acme Roofing"`. -/
theorem claim_C8_self_match_witness :
    normalizeCompanyName "Acme Roofing" ≠ "" ∧
      calculateMatchScore "Acme Roofing" "Acme Roofing" = ⟨1, "exact"⟩ :=
  ⟨by decide, claim_C8_self_match "Acme Roofing" (by decide)⟩

/-! ## The suffix-stripping loop only ever cuts at the end -/

/-- Heads of nonempty prefixes agree with the head of the full list. -/
theorem head_of_pref {l p : List Char} (h : p <+: l) :
    ∀ d, p.head? = some d → l.head? = some d := by
  intro d hd
  obtain ⟨t, ht⟩ := h
  cases p with
  | nil => simp at hd
  | cons a rest =>
      simp only [List.head?_cons, Option.some.injEq] at hd
      cases hd
      rw [← ht]
      simp

/-- Dropping trailing characters yields a prefix. -/
theorem rstrip_pref (p : Char → Bool) (y : List Char) :
    (y.reverse.dropWhile p).reverse <+: y := by
  have h2 : y.reverse.dropWhile p <:+ y.reverse := by apply List.dropWhile_suffix
  have h4 := List.reverse_prefix.mpr h2
  simpa using h4

/-- On a list with no leading whitespace, `trim` only cuts at the end. -/
theorem jsTrim_pref_of_head (y : List Char)
    (h : ∀ d, y.head? = some d → isSpaceJS d = false) : jsTrim y <+: y := by
  rw [jsTrim, dropWhile_fix isSpaceJS y h]
  exact rstrip_pref isSpaceJS y

/-- One pass of the suffix-stripping loop returns a prefix of its input
and preserves the absence of leading whitespace. -/
theorem stripSuffixOnce_pref (l : List Char) (s : String)
    (h : ∀ d, l.head? = some d → isSpaceJS d = false) :
    stripSuffixOnce l s <+: l ∧
      (∀ d, (stripSuffixOnce l s).head? = some d → isSpaceJS d = false) := by
  rw [stripSuffixOnce]
  by_cases hc : (s.data.isSuffixOf l &&
      (match (l.take (l.length - s.data.length)).getLast? with
        | none => true | some c => !isWordChar c)) = true
  · rw [if_pos hc]
    have hpre1 : l.take (l.length - s.data.length) <+: l := List.take_prefix _ _
    have hhead : ∀ d, (l.take (l.length - s.data.length)).head? = some d →
        isSpaceJS d = false := by
      intro d hd
      exact h d (head_of_pref hpre1 d hd)
    have htrim := jsTrim_pref_of_head _ hhead
    refine ⟨htrim.trans hpre1, ?_⟩
    intro d hd
    exact hhead d (head_of_pref htrim d hd)
  · rw [if_neg hc]
    exact ⟨List.prefix_refl l, h⟩

/-- The whole suffix loop returns a prefix of its input and preserves the
absence of leading whitespace. -/
theorem foldl_strip_pref :
    ∀ (sufs : List String) (l : List Char),
      (∀ d, l.head? = some d → isSpaceJS d = false) →
      sufs.foldl stripSuffixOnce l <+: l ∧
        (∀ d, (sufs.foldl stripSuffixOnce l).head? = some d → isSpaceJS d = false) := by
  intro sufs
  induction sufs with
  | nil => intro l h; exact ⟨List.prefix_refl l, h⟩
  | cons s rest ih =>
      intro l h
      obtain ⟨h1, h2⟩ := stripSuffixOnce_pref l s h
      obtain ⟨h3, h4⟩ := ih (stripSuffixOnce l s) h2
      exact ⟨h3.trans h1, h4⟩

/-- `normalizeL` output has no leading whitespace. -/
theorem normalizeL_head (l : List Char) :
    ∀ d, (normalizeL l).head? = some d → isSpaceJS d = false := by
  intro d hd
  rw [normalizeL] at hd
  exact jsTrim_head _ d hd

/-- `removeBusinessSuffixes` only ever removes characters from the end:
its result is a prefix of the normalized input. -/
theorem removeBusinessSuffixes_data (x : String) :
    (removeBusinessSuffixes x).data =
      jsTrim (sortedSuffixes.foldl stripSuffixOnce (normalizeCompanyName x).data) := by
  rw [removeBusinessSuffixes]

theorem removeBusinessSuffixes_pref (x : String) :
    (removeBusinessSuffixes x).data <+: (normalizeCompanyName x).data := by
  rw [removeBusinessSuffixes_data]
  obtain ⟨h1, h2⟩ := foldl_strip_pref sortedSuffixes (normalizeCompanyName x).data
    (normalizeL_head x.data)
  exact (jsTrim_pref_of_head _ h2).trans h1

/-! ## Splitting and joining on spaces -/

theorem splitSpAux_ne_nil : ∀ (l cur : List Char), splitSpAux cur l ≠ [] := by
  intro l
  induction l with
  | nil => intro cur; simp [splitSpAux]
  | cons c cs ih =>
      intro cur
      rw [splitSpAux]
      by_cases hc : c = ' '
      · rw [if_pos hc]; simp
      · rw [if_neg hc]; exact ih (c :: cur)

theorem joinSp_cons_ne (w : List Char) (ws : List (List Char)) (h : ws ≠ []) :
    joinSp (w :: ws) = w ++ ' ' :: joinSp ws := by
  cases ws with
  | nil => exact absurd rfl h
  | cons y ys => rfl

theorem joinSp_splitSpAux : ∀ (l cur : List Char), joinSp (splitSpAux cur l) = cur.reverse ++ l := by
  intro l
  induction l with
  | nil => intro cur; simp [splitSpAux, joinSp]
  | cons c cs ih =>
      intro cur
      rw [splitSpAux]
      by_cases hc : c = ' '
      · rw [if_pos hc, joinSp_cons_ne _ _ (splitSpAux_ne_nil cs []), ih []]
        simp [hc]
      · rw [if_neg hc, ih (c :: cur)]
        simp

/-- Joining the pieces of a split reproduces the original list. -/
theorem joinSp_splitSp (l : List Char) : joinSp (splitSp l) = l := by
  rw [splitSp, joinSp_splitSpAux]
  simp

theorem joinSp_length_cons_le (w : List Char) (ws : List (List Char)) :
    (joinSp ws).length ≤ (joinSp (w :: ws)).length := by
  cases ws with
  | nil => simp [joinSp]
  | cons y ys =>
      rw [joinSp_cons_ne w (y :: ys) (by simp)]
      simp only [List.length_append, List.length_cons]
      omega

theorem joinSp_filter_length_le (p : List Char → Bool) :
    ∀ (ws : List (List Char)), (joinSp (ws.filter p)).length ≤ (joinSp ws).length := by
  intro ws
  induction ws with
  | nil => simp [joinSp]
  | cons w rest ih =>
      rw [List.filter_cons]
      by_cases hp : p w
      · rw [if_pos hp]
        cases hrest : rest.filter p with
        | nil =>
            have hle : (joinSp [w]).length ≤ (joinSp (w :: rest)).length := by
              cases rest with
              | nil => exact le_refl _
              | cons y ys =>
                  rw [joinSp_cons_ne w (y :: ys) (by simp)]
                  simp [joinSp]
            simpa [hrest] using hle
        | cons z zs =>
            rw [← hrest, joinSp_cons_ne w (rest.filter p) (by simp [hrest])]
            cases rest with
            | nil => simp at hrest
            | cons y ys =>
                rw [joinSp_cons_ne w (y :: ys) (by simp)]
                simp only [List.length_append, List.length_cons]
                omega
      · rw [if_neg hp]
        exact ih.trans (joinSp_length_cons_le w rest)

/-! ## C10: stripping suffixes and fillers never lengthens a name -/

theorem removeIgnorableWords_data (x : String) :
    (removeIgnorableWords x).data =
      joinSp ((splitSp x.data).filter
        (fun w => !(IGNORABLE_WORDS.contains ⟨w.map Char.toLower⟩))) := by
  rw [removeIgnorableWords]

theorem extractCoreName_data (x : String) :
    (extractCoreName x).data =
      jsTrim (removeIgnorableWords (removeBusinessSuffixes (normalizeCompanyName x))).data := by
  rw [extractCoreName]

theorem removeIgnorableWords_length_le (x : String) :
    (removeIgnorableWords x).data.length ≤ x.data.length := by
  rw [removeIgnorableWords_data]
  calc (joinSp ((splitSp x.data).filter _)).length
      ≤ (joinSp (splitSp x.data)).length := joinSp_filter_length_le _ _
    _ = x.data.length := by rw [joinSp_splitSp]

theorem normalizeCompanyName_data (x : String) :
    (normalizeCompanyName x).data = normalizeL x.data := rfl

/-- Normalizing is idempotent at the `String` level, stated on data. -/
theorem normalize_normalize (x : String) :
    normalizeCompanyName (normalizeCompanyName x) = normalizeCompanyName x :=
  claim_C7_normalize_idempotent x

/-- C10: suffix stripping never lengthens a name: both the suffix-stripped
normalized name and the full core name are at most as long as the
normalized name.  (`removeBusinessSuffixes` normalizes its own input, so
`stripSuffixes(normalize(x))` is `removeBusinessSuffixes (normalizeCompanyName x)`.) -/
theorem claim_C10_suffix_monotone (x : String) :
    (removeBusinessSuffixes (normalizeCompanyName x)).data.length ≤
        (normalizeCompanyName x).data.length ∧
      (extractCoreName x).data.length ≤ (normalizeCompanyName x).data.length := by
  have hstrip : ∀ y : String, (removeBusinessSuffixes y).data.length ≤
      (normalizeCompanyName y).data.length :=
    fun y => (removeBusinessSuffixes_pref y).sublist.length_le
  constructor
  · calc (removeBusinessSuffixes (normalizeCompanyName x)).data.length
        ≤ (normalizeCompanyName (normalizeCompanyName x)).data.length := hstrip _
      _ = (normalizeCompanyName x).data.length := by rw [normalize_normalize]
  · rw [extractCoreName_data]
    calc (jsTrim (removeIgnorableWords (removeBusinessSuffixes (normalizeCompanyName x))).data).length
        ≤ (removeIgnorableWords (removeBusinessSuffixes (normalizeCompanyName x))).data.length :=
          (jsTrim_sublist _).length_le
      _ ≤ (removeBusinessSuffixes (normalizeCompanyName x)).data.length :=
          removeIgnorableWords_length_le _
      _ ≤ (normalizeCompanyName (normalizeCompanyName x)).data.length := hstrip _
      _ = (normalizeCompanyName x).data.length := by rw [normalize_normalize]

/-! ## C6: suffix matching is end-anchored but runs in a single pass -/

/-- Counterexample for C6: on `"acme company llc"` the pass removes
`"llc"`, re-exposing the table suffix `"company"` word-boundary-anchored
at the end of the string (one more application of the suffix rule would
remove it), yet the result keeps it: the claimed iterative removal of
re-exposed suffixes that sit earlier in the table does not happen. -/
theorem claim_C6_counterexample :
    removeBusinessSuffixes "acme company llc" = "acme company" ∧
      "company" ∈ BUSINESS_SUFFIXES ∧
      "company".data.isSuffixOf (removeBusinessSuffixes "acme company llc").data = true ∧
      stripSuffixOnce (removeBusinessSuffixes "acme company llc").data "company" = "acme".data ∧
      removeBusinessSuffixes "acme company llc" ≠ "acme" := by
  refine ⟨by decide, by decide, by decide, by decide, by decide⟩

/-- C6 (amended): suffix matching is end-anchored and word-boundary
anchored — the result is always a prefix of the normalized input — and
the longest-first table is applied in a single pass, so a suffix
re-exposed by a removal is itself removed only when it occurs later in
the length-sorted table: `"acme llc company"` strips all the way to
`"acme"`, while `"acme company llc"` strips only to `"acme company"`. -/
theorem claim_C6_end_anchored_single_pass :
    (∀ x : String, (removeBusinessSuffixes x).data <+: (normalizeCompanyName x).data) ∧
      removeBusinessSuffixes "acme llc company" = "acme" ∧
      removeBusinessSuffixes "acme company llc" = "acme company" :=
  ⟨removeBusinessSuffixes_pref, by decide, by decide⟩

/-! ## C1: the `search_in_result` rule and its score arithmetic -/

/-- Counterexample for C1: for `"acme"` against `"acme roofing"` rule 3
fires, but the score is `0.90 + 0.08·(4/12) = 139/150`, not the claimed
`0.85 + 0.08·(4/12)`. -/
theorem claim_C1_counterexample :
    calculateMatchScore "acme" "acme roofing" = ⟨mkRat 139 150, "search_in_result"⟩ ∧
      (mkRat 139 150 : ℚ) ≠
        85/100 + (((extractCoreName "acme").data.length : ℚ) /
          ((extractCoreName "acme roofing").data.length : ℚ)) * (8/100) := by
  constructor
  · decide
  · have h1 : (extractCoreName "acme").data.length = 4 := by decide
    have h2 : (extractCoreName "acme roofing").data.length = 12 := by decide
    rw [h1, h2, Rat.mkRat_eq_div]
    push_cast
    norm_num

/-- C1 (amended): whenever rules 1 and 2 do not fire and `core(b)`
contains `core(a)` as a substring, the scorer returns match type
`search_in_result` with score `0.90 + 0.08·(len(core(a))/len(core(b)))`
(the base is 0.90, not the claimed 0.85). -/
theorem claim_C1_search_in_result (a b : String)
    (h1 : normalizeCompanyName a ≠ normalizeCompanyName b)
    (h2 : extractCoreName a ≠ extractCoreName b)
    (h3 : jsIncludes (extractCoreName b).data (extractCoreName a).data = true) :
    calculateMatchScore a b =
      ⟨90/100 + (((extractCoreName a).data.length : ℚ) /
          ((extractCoreName b).data.length : ℚ)) * (8/100), "search_in_result"⟩ := by
  rw [calculateMatchScore, if_neg h1, if_neg h2, if_pos h3]
  show MatchScore.mk (qadd (mkRat 90 100)
      (qmul (mkRat (extractCoreName a).data.length (extractCoreName b).data.length)
        (mkRat 8 100))) "search_in_result" = _
  have hscore : qadd (mkRat 90 100)
      (qmul (mkRat (extractCoreName a).data.length (extractCoreName b).data.length) (mkRat 8 100)) =
      90/100 + (((extractCoreName a).data.length : ℚ) /
        ((extractCoreName b).data.length : ℚ)) * (8/100) := by
    rw [qadd_eq, qmul_eq, Rat.mkRat_eq_div, Rat.mkRat_eq_div, Rat.mkRat_eq_div]
    push_cast
    norm_num
  rw [hscore]

/-- Witness for C1 (amended) at `("acme", "acme roofing")`. -/
theorem claim_C1_search_in_result_witness :
    normalizeCompanyName "acme" ≠ normalizeCompanyName "acme roofing" ∧
      extractCoreName "acme" ≠ extractCoreName "acme roofing" ∧
      jsIncludes (extractCoreName "acme roofing").data (extractCoreName "acme").data = true ∧
      calculateMatchScore "acme" "acme roofing" =
        ⟨90/100 + (((extractCoreName "acme").data.length : ℚ) /
            ((extractCoreName "acme roofing").data.length : ℚ)) * (8/100), "search_in_result"⟩ :=
  ⟨by decide, by decide, by decide,
    claim_C1_search_in_result "acme" "acme roofing" (by decide) (by decide) (by decide)⟩

/-! ## C2: the `core_exact` rule -/

/-- Counterexample for C2: `"llc"` and `"inc"` both have the empty core,
so the scorer returns `core_exact` (score 0.98) even though the common
core is empty, contradicting the claimed `only when ... non-empty`. -/
theorem claim_C2_counterexample :
    calculateMatchScore "llc" "inc" = ⟨mkRat 98 100, "core_exact"⟩ ∧
      extractCoreName "llc" = "" ∧ extractCoreName "inc" = "" := by
  refine ⟨by decide, by decide, by decide⟩

/-- C2 (amended): the scorer returns match type `core_exact` exactly when
the normalized names differ and the core names coincide — the common
core may be empty — and in that case the score is the constant 0.98,
which lies in the claimed range [0.95, 0.98]. -/
theorem claim_C2_core_exact (a b : String) :
    ((calculateMatchScore a b).matchType = "core_exact" ↔
      (normalizeCompanyName a ≠ normalizeCompanyName b ∧ extractCoreName a = extractCoreName b)) ∧
    ((calculateMatchScore a b).matchType = "core_exact" →
      (calculateMatchScore a b).score = mkRat 98 100 ∧
        (0.95 : ℚ) ≤ mkRat 98 100 ∧ (mkRat 98 100 : ℚ) ≤ 0.98) := by
  rw [calculateMatchScore]
  by_cases h1 : normalizeCompanyName a = normalizeCompanyName b
  · rw [if_pos h1]
    constructor
    · simp [h1]
    · intro hmt
      simp at hmt
  · rw [if_neg h1]
    by_cases h2 : extractCoreName a = extractCoreName b
    · rw [if_pos h2]
      refine ⟨by simp [h1, h2], ?_⟩
      intro _
      refine ⟨rfl, ?_, ?_⟩ <;> norm_num [mkRat_nat_eq]
    · rw [if_neg h2]
      constructor
      · constructor
        · intro hmt
          exfalso
          revert hmt
          split_ifs <;> try simp
          all_goals (split_ifs <;> simp)
        · rintro ⟨-, hc⟩
          exact absurd hc h2
      · intro hmt
        exfalso
        revert hmt
        split_ifs <;> try simp
        all_goals (split_ifs <;> simp)

/-- Witness for C2 (amended) at `("Acme LLC", "Acme Inc")`, where the
common core `"acme"` is non-empty. -/
theorem claim_C2_core_exact_witness :
    (calculateMatchScore "Acme LLC" "Acme Inc").matchType = "core_exact" ∧
      (calculateMatchScore "Acme LLC" "Acme Inc").score = mkRat 98 100 :=
  ⟨(claim_C2_core_exact "Acme LLC" "Acme Inc").1.mpr ⟨by decide, by decide⟩,
    ((claim_C2_core_exact "Acme LLC" "Acme Inc").2
      ((claim_C2_core_exact "Acme LLC" "Acme Inc").1.mpr ⟨by decide, by decide⟩)).1⟩

/-! ## C9: the DP table computes the classic recursive edit distance -/

theorem levRef_nil_right : ∀ (l : List Char), levRef l [] = l.length := by
  intro l
  cases l <;> simp [levRef]

theorem levRef_nil_left (l : List Char) : levRef [] l = l.length := by
  simp [levRef]

theorem levRef_self : ∀ (l : List Char), levRef l l = 0 := by
  intro l
  induction l with
  | nil => simp [levRef]
  | cons c cs ih => simp [levRef, ih]

/-- Appending one character to the second argument of the reference
distance against a single-character first argument. -/
theorem lev_snoc_nil :
    ∀ (zs : List Char) (x y : Char),
      levRef [x] (zs ++ [y]) =
        if x = y then zs.length else 1 + min (levRef [x] zs) zs.length := by
  intro zs
  induction zs with
  | nil =>
      intro x y
      by_cases h : x = y
      · simp only [List.nil_append, levRef, if_pos h, List.length_nil]
      · simp only [List.nil_append, levRef, if_neg h, levRef_nil_left, levRef_nil_right,
          List.length_nil, List.length_cons]
        omega
  | cons z zs ih =>
      intro x y
      have ihxy := ih x y
      simp only [List.cons_append, levRef, levRef_nil_left, levRef_nil_right,
        List.length_append, List.length_cons, List.length_nil]
      rw [ihxy]
      by_cases hxz : x = z
      · by_cases hxy : x = y
        · simp only [if_pos hxz, if_pos hxy]
        · simp only [if_pos hxz, if_neg hxy]; omega
      · by_cases hxy : x = y
        · simp only [if_neg hxz, if_pos hxy]; omega
        · simp only [if_neg hxz, if_neg hxy]; omega

/-- Appending one character to the first argument of the reference
distance against a single-character second argument. -/
theorem lev_snoc_nil' :
    ∀ (xs : List Char) (x y : Char),
      levRef (xs ++ [x]) [y] =
        if x = y then xs.length else 1 + min (levRef xs [y]) xs.length := by
  intro xs
  induction xs with
  | nil =>
      intro x y
      by_cases h : x = y
      · simp only [List.nil_append, levRef, if_pos h, List.length_nil]
      · simp only [List.nil_append, levRef, if_neg h, levRef_nil_left, levRef_nil_right,
          List.length_nil, List.length_cons]
        omega
  | cons a as ih =>
      intro x y
      have ihxy := ih x y
      simp only [List.cons_append, levRef, levRef_nil_left, levRef_nil_right,
        List.length_append, List.length_cons, List.length_nil]
      rw [ihxy]
      by_cases hay : a = y
      · by_cases hxy : x = y
        · simp only [if_pos hay, if_pos hxy]
        · simp only [if_pos hay, if_neg hxy]; omega
      · by_cases hxy : x = y
        · simp only [if_neg hay, if_pos hxy]; omega
        · simp only [if_neg hay, if_neg hxy]; omega

/-- Edit distance can also be computed by recursion on the last
characters: the classic front recursion satisfies the mirrored
recurrence on snocs.  This is the bridge between the reference
definition and the source's prefix-indexed table. -/
theorem lev_snoc :
    ∀ (xs ys : List Char) (x y : Char),
      levRef (xs ++ [x]) (ys ++ [y]) =
        if x = y then levRef xs ys
        else 1 + min (levRef xs (ys ++ [y])) (min (levRef (xs ++ [x]) ys) (levRef xs ys)) := by
  intro xs
  induction xs with
  | nil =>
      intro ys x y
      rw [List.nil_append, lev_snoc_nil ys x y]
      by_cases hxy : x = y
      · rw [if_pos hxy, if_pos hxy, levRef_nil_left]
      · rw [if_neg hxy, if_neg hxy, levRef_nil_left, levRef_nil_left]
        simp only [List.length_append, List.length_cons, List.length_nil]
        omega
  | cons a as iha =>
      intro ys
      induction ys with
      | nil =>
          intro x y
          rw [List.nil_append, lev_snoc_nil' (a :: as) x y]
          by_cases hxy : x = y
          · rw [if_pos hxy, if_pos hxy, levRef_nil_right]
          · rw [if_neg hxy, if_neg hxy, levRef_nil_right, levRef_nil_right]
            simp only [List.length_append, List.length_cons, List.length_nil]
            omega
      | cons b bs ihb =>
          intro x y
          have ihA := iha (b :: bs) x y
          have ihB := ihb x y
          have ihC := iha bs x y
          simp only [List.cons_append] at ihA ihB ihC ⊢
          by_cases hxy : x = y
          · rw [if_pos hxy] at ihA ihB ihC ⊢
            by_cases hab : a = b
            · simp only [levRef, if_pos hab]
              exact ihC
            · simp only [levRef, if_neg hab]
              rw [ihA, ihB, ihC]
          · rw [if_neg hxy] at ihA ihB ihC ⊢
            by_cases hab : a = b
            · simp only [levRef, if_pos hab]
              exact ihC
            · simp only [levRef, if_neg hab]
              rw [ihA, ihB, ihC]
              have collapse : ∀ p q r : ℕ, min (1 + p) (min (1 + q) (1 + r)) = 1 + min p (min q r) := by
                intro p q r; omega
              rw [collapse, collapse]
              have haux : min (levRef as (b :: (bs ++ [y]))) (min (levRef (as ++ [x]) (b :: bs)) (levRef as (b :: bs))) ⊓
                  (min (levRef (a :: as) (bs ++ [y])) (min (levRef (a :: (as ++ [x])) bs) (levRef (a :: as) bs)) ⊓
                    min (levRef as (bs ++ [y])) (min (levRef (as ++ [x]) bs) (levRef as bs))) =
                  min (levRef as (b :: (bs ++ [y]))) (min (levRef (a :: as) (bs ++ [y])) (levRef as (bs ++ [y]))) ⊓
                  (min (levRef (as ++ [x]) (b :: bs)) (min (levRef (a :: (as ++ [x])) bs) (levRef (as ++ [x]) bs)) ⊓
                    min (levRef as (b :: bs)) (min (levRef (a :: as) bs) (levRef as bs))) := by
                ac_rfl
              omega

theorem levDP_zero_right (s t : List Char) : ∀ i, levDP s t i 0 = i := by
  intro i
  cases i <;> simp [levDP]

/-- The table recurrence computes the reference distance of the
corresponding prefixes. -/
theorem levDP_take (s t : List Char) :
    ∀ i, i ≤ s.length → ∀ j, j ≤ t.length →
      levDP s t i j = levRef (s.take i) (t.take j) := by
  intro i
  induction i with
  | zero =>
      intro _ j hj
      simp only [levDP, List.take_zero, levRef_nil_left, List.length_take]
      omega
  | succ i ih =>
      intro hi j
      induction j with
      | zero =>
          intro _
          simp only [levDP, List.take_zero, levRef_nil_right, List.length_take]
          omega
      | succ j ihj =>
          intro hj
          have hi' : i < s.length := Nat.lt_of_succ_le hi
          have hj' : j < t.length := Nat.lt_of_succ_le hj
          have hs : s.take (i + 1) = s.take i ++ [s.getD i ' '] := by
            rw [List.take_succ, List.getElem?_eq_getElem hi']
            simp [List.getD_eq_getElem?_getD, List.getElem?_eq_getElem hi']
          have ht : t.take (j + 1) = t.take j ++ [t.getD j ' '] := by
            rw [List.take_succ, List.getElem?_eq_getElem hj']
            simp [List.getD_eq_getElem?_getD, List.getElem?_eq_getElem hj']
          rw [levDP, ih (Nat.le_of_succ_le hi) (j + 1) hj,
            ih (Nat.le_of_succ_le hi) j (Nat.le_of_lt hj'), ihj (Nat.le_of_succ_le hj),
            hs, ht, lev_snoc]

theorem levDP_full (s t : List Char) : levDP s t s.length t.length = levRef s t := by
  rw [levDP_take s t s.length le_rfl t.length le_rfl, List.take_length, List.take_length]

/-- The inner loop fills the remaining columns of row `i + 1` with the
table values of the recurrence. -/
theorem levRowStep_spec (s t : List Char) (i : ℕ) :
    ∀ (m j : ℕ), t.length - j = m → j ≤ t.length →
      levRowStep (s.getD i ' ') (t.drop j)
        ((List.range m).map (fun k => levDP s t i (j + 1 + k)))
        (levDP s t i j) (levDP s t (i + 1) j)
      = (List.range m).map (fun k => levDP s t (i + 1) (j + 1 + k)) := by
  intro m
  induction m with
  | zero =>
      intro j hm hj
      have : t.length = j := by omega
      simp [List.drop_eq_nil_of_le, this, levRowStep]
  | succ m ihm =>
      intro j hm hj
      have hj' : j < t.length := by omega
      have hdrop : t.drop j = t.getD j ' ' :: t.drop (j + 1) := by
        rw [List.drop_eq_getElem_cons hj']
        simp [List.getD_eq_getElem?_getD, List.getElem?_eq_getElem hj']
      have hrange : ∀ (f : ℕ → ℕ), (List.range (m + 1)).map f = f 0 :: (List.range m).map (f ∘ Nat.succ) := by
        intro f
        rw [List.range_succ_eq_map]
        simp [Function.comp]
      rw [hdrop, hrange, hrange, levRowStep]
      have hq : (if s.getD i ' ' = t.getD j ' ' then levDP s t i j
          else 1 + min (levDP s t i (j + 1 + 0)) (min (levDP s t (i + 1) j) (levDP s t i j))) =
          levDP s t (i + 1) (j + 1) := by
        rw [levDP]
      have harg1 : ((fun k => levDP s t i (j + 1 + k)) ∘ Nat.succ) =
          (fun k => levDP s t i ((j + 1) + 1 + k)) := by
        funext k
        simp only [Function.comp]
        congr 1
        omega
      have harg2 : ((fun k => levDP s t (i + 1) (j + 1 + k)) ∘ Nat.succ) =
          (fun k => levDP s t (i + 1) ((j + 1) + 1 + k)) := by
        funext k
        simp only [Function.comp]
        congr 1
        omega
      rw [hq, harg1, harg2]
      have h0 : j + 1 + 0 = j + 1 := by omega
      rw [h0]
      congr 1
      exact ihm (j + 1) (by omega) (by omega)

/-- One outer-loop iteration turns row `i` into row `i + 1`. -/
theorem levNextRow_spec (s t : List Char) (i : ℕ) (hi : i < s.length) :
    levNextRow (s.getD i ' ') t ((List.range (t.length + 1)).map (levDP s t i)) (i + 1) =
      (List.range (t.length + 1)).map (levDP s t (i + 1)) := by
  rw [levNextRow]
  have hrange : ∀ (f : ℕ → ℕ), (List.range (t.length + 1)).map f =
      f 0 :: (List.range t.length).map (f ∘ Nat.succ) := by
    intro f
    rw [List.range_succ_eq_map]
    simp [Function.comp]
  rw [hrange, hrange]
  simp only [List.tail_cons, List.headD_cons]
  have harg : ((levDP s t i) ∘ Nat.succ) = fun k => levDP s t i (0 + 1 + k) := by
    funext k
    simp only [Function.comp]
    congr 1
    omega
  have harg2 : ((levDP s t (i + 1)) ∘ Nat.succ) = fun k => levDP s t (i + 1) (0 + 1 + k) := by
    funext k
    simp only [Function.comp]
    congr 1
    omega
  have hstep := levRowStep_spec s t i t.length 0 (by omega) (by omega)
  rw [List.drop_zero] at hstep
  rw [harg, harg2]
  have hd0 : levDP s t i 0 = levDP s t i 0 := rfl
  rw [show levDP s t (i + 1) 0 = i + 1 from levDP_zero_right s t (i + 1)] at hstep
  rw [hstep]
  congr 1
  exact (levDP_zero_right s t (i + 1)).symm

/-- Running the outer loop from row `i` produces the final row `dp[m]`. -/
theorem levFinalRow_spec (s t : List Char) :
    ∀ (srest : List Char) (i : ℕ), srest = s.drop i → i ≤ s.length →
      levFinalRow t srest ((List.range (t.length + 1)).map (levDP s t i)) (i + 1) =
        (List.range (t.length + 1)).map (levDP s t s.length) := by
  intro srest
  induction srest with
  | nil =>
      intro i hdrop hi
      have hieq : i = s.length := by
        by_contra hne
        have hlt : i < s.length := lt_of_le_of_ne hi hne
        have hcons := List.drop_eq_getElem_cons hlt
        rw [← hdrop] at hcons
        simp at hcons
        omega
      rw [levFinalRow, hieq]
  | cons ci srest ih =>
      intro i hdrop hi
      have hi' : i < s.length := by
        by_contra hge
        push_neg at hge
        rw [List.drop_eq_nil_of_le hge] at hdrop
        simp at hdrop
      have hci : ci = s.getD i ' ' ∧ srest = s.drop (i + 1) := by
        rw [List.drop_eq_getElem_cons hi'] at hdrop
        simp only [List.cons.injEq] at hdrop
        refine ⟨?_, hdrop.2⟩
        rw [hdrop.1]
        simp [List.getD_eq_getElem?_getD, List.getElem?_eq_getElem hi']
      rw [levFinalRow, hci.1, levNextRow_spec s t i hi']
      exact ih (i + 1) hci.2 hi'

theorem dataMk (l : List Char) : (⟨l⟩ : String).data = l := rfl

/-- The row-by-row tabulation returns exactly the bottom-right entry of
the recurrence's table. -/
theorem levenshteinDistance_eq_levDP (str1 str2 : String) :
    levenshteinDistance str1 str2 = levDP str1.data str2.data str1.data.length str2.data.length := by
  rw [levenshteinDistance]
  have hinit : List.range (str2.data.length + 1) =
      (List.range (str2.data.length + 1)).map (levDP str1.data str2.data 0) := by
    have h1 : ∀ j ∈ List.range (str2.data.length + 1),
        levDP str1.data str2.data 0 j = id j := fun j _ => by simp [levDP]
    rw [List.map_congr_left h1, List.map_id]
  have hfinal := levFinalRow_spec str1.data str2.data str1.data 0
    (List.drop_zero str1.data).symm (Nat.zero_le _)
  simp only [Nat.zero_add] at hfinal
  rw [hinit, hfinal, List.range_succ, List.map_append, List.map_cons, List.map_nil,
    List.getLastD_concat]

/-- `levenshteinDistance` computes the classic recursive edit
distance. -/
theorem levenshteinDistance_eq_levRef (str1 str2 : String) :
    levenshteinDistance str1 str2 = levRef str1.data str2.data := by
  rw [levenshteinDistance_eq_levDP, levDP_full]

/-- Counterexample for C9: the similarity function lowercases its inputs
first, so `calculateSimilarity "A" "a" = 1` although the claimed formula
`1 - editDistance(x, y)/max(len(x), len(y))` evaluates to 0 at
`("A", "a")`. -/
theorem claim_C9_counterexample :
    calculateSimilarity "A" "a" = 1 ∧
      (1 : ℚ) - (levenshteinDistance "A" "a" : ℚ) /
        (max "A".data.length "a".data.length : ℚ) = 0 ∧
      (1 : ℚ) ≠ 0 := by
  refine ⟨by decide, ?_, by norm_num⟩
  have h1 : levenshteinDistance "A" "a" = 1 := by decide
  have h3 : "A".data.length = 1 := by decide
  have h4 : "a".data.length = 1 := by decide
  rw [h1, h3, h4]
  norm_num

/-- C9 (amended): the dynamic-programming `levenshteinDistance` computes
exactly the classic recursive unit-cost edit distance, and the
similarity function equals `1 - editDistance(lower(x), lower(y)) /
max(len(x), len(y))` — the function lowercases its inputs first — with
the similarity of two empty strings equal to 1 (the `max = 0` branch). -/
theorem claim_C9_levenshtein :
    (∀ str1 str2 : String, levenshteinDistance str1 str2 = levRef str1.data str2.data) ∧
      (∀ x y : String, calculateSimilarity x y =
        if max x.data.length y.data.length = 0 then 1
        else 1 - (levenshteinDistance ⟨x.data.map Char.toLower⟩ ⟨y.data.map Char.toLower⟩ : ℚ) /
          (max x.data.length y.data.length : ℚ)) := by
  refine ⟨levenshteinDistance_eq_levRef, ?_⟩
  intro x y
  rw [calculateSimilarity]
  simp only [dataMk, List.length_map]
  by_cases heq : (⟨x.data.map Char.toLower⟩ : String) = ⟨y.data.map Char.toLower⟩
  · rw [if_pos heq]
    have hlev : levenshteinDistance ⟨x.data.map Char.toLower⟩ ⟨y.data.map Char.toLower⟩ = 0 := by
      rw [heq, levenshteinDistance_eq_levRef, levRef_self]
    rw [hlev]
    by_cases hm : max x.data.length y.data.length = 0
    · rw [if_pos hm]
    · rw [if_neg hm]
      norm_num
  · rw [if_neg heq]
    by_cases hm : max x.data.length y.data.length = 0
    · rw [if_pos hm, if_pos hm]
    · rw [if_neg hm, if_neg hm, qsub_eq, mkRat_nat_eq]
      push_cast
      norm_num

/-! ## C3 and C4: the Selector's threshold gating and tie-breaking -/

theorem findBestMatch_match? (s : String) (rs : List ParsedResultCard) (m : ℚ) :
    (findBestMatch s rs m).match? =
      (findBestMatchGo (generateNameVariations s) m rs none 0 "" []).1 := by
  rw [findBestMatch]

theorem findBestMatch_allScores (s : String) (rs : List ParsedResultCard) (m : ℚ) :
    (findBestMatch s rs m).allScores =
      sortScoresDesc (findBestMatchGo (generateNameVariations s) m rs none 0 "" []).2.2.2 := by
  rw [findBestMatch]

theorem insertScoreDesc_perm (x : ScoredCandidate) :
    ∀ (l : List ScoredCandidate), (insertScoreDesc x l).Perm (x :: l) := by
  intro l
  induction l with
  | nil => rfl
  | cons y ys ih =>
      rw [insertScoreDesc]
      by_cases h : y.score ≤ x.score
      · rw [if_pos h]
      · rw [if_neg h]
        exact (ih.cons y).trans (List.Perm.swap x y ys)

theorem sortScoresDesc_perm : ∀ (l : List ScoredCandidate), (sortScoresDesc l).Perm l := by
  intro l
  induction l with
  | nil => rfl
  | cons a l ih =>
      show (insertScoreDesc a (sortScoresDesc l)).Perm (a :: l)
      exact (insertScoreDesc_perm a (sortScoresDesc l)).trans (ih.cons a)

/-- When every remaining candidate scores strictly below the threshold,
the loop keeps its running state and only extends the score table. -/
theorem findBestMatchGo_below (vars : List String) (minScore : ℚ) :
    ∀ (l : List ParsedResultCard) (best : Option ParsedResultCard) (bs : ℚ) (bt : String)
      (acc : List ScoredCandidate),
      (∀ r ∈ l, (bestVariationScore vars r.companyName).1 < minScore) →
      findBestMatchGo vars minScore l best bs bt acc =
        (best, bs, bt, acc ++ l.map (fun r =>
          ⟨r.companyName, (bestVariationScore vars r.companyName).1,
            (bestVariationScore vars r.companyName).2⟩)) := by
  intro l
  induction l with
  | nil => intro best bs bt acc _; simp [findBestMatchGo]
  | cons r rest ih =>
      intro best bs bt acc hall
      rw [findBestMatchGo, if_neg]
      · rw [ih best bs bt _ (fun r' hr' => hall r' (List.mem_cons_of_mem _ hr'))]
        simp
      · rintro ⟨hge, -⟩
        exact absurd hge (not_le.mpr (hall r (List.mem_cons_self r rest)))

/-- C3: threshold gating: when every candidate's best score over all
variations is strictly below `minScore`, resolution returns no best
match, while the score table still records one entry (the candidate's
best score and match type) per candidate. -/
theorem claim_C3_threshold_gating (searchName : String) (results : List ParsedResultCard)
    (minScore : ℚ) (hne : results ≠ [])
    (hall : ∀ r ∈ results,
      (bestVariationScore (generateNameVariations searchName) r.companyName).1 < minScore) :
    (findBestMatch searchName results minScore).match? = none ∧
      (findBestMatch searchName results minScore).allScores.length = results.length ∧
      ∀ r ∈ results,
        (⟨r.companyName, (bestVariationScore (generateNameVariations searchName) r.companyName).1,
          (bestVariationScore (generateNameVariations searchName) r.companyName).2⟩ :
            ScoredCandidate) ∈ (findBestMatch searchName results minScore).allScores := by
  have hgo := findBestMatchGo_below (generateNameVariations searchName) minScore results
    none 0 "" [] hall
  have hperm := sortScoresDesc_perm
    (findBestMatchGo (generateNameVariations searchName) minScore results none 0 "" []).2.2.2
  refine ⟨?_, ?_, ?_⟩
  · rw [findBestMatch_match?, hgo]
  · rw [findBestMatch_allScores, hperm.length_eq, hgo]
    simp
  · intro r hr
    rw [findBestMatch_allScores]
    refine (sortScoresDesc_perm _).mem_iff.mpr ?_
    rw [hgo]
    simp only [List.nil_append, List.mem_map]
    exact ⟨r, hr, rfl⟩

/-- Witness for C3 at query `"ab"`, single candidate `"xy"` and the
default threshold, where the only best score is 0. -/
theorem claim_C3_threshold_gating_witness :
    ([(⟨"xy"⟩ : ParsedResultCard)] ≠ []) ∧
      (∀ r ∈ [(⟨"xy"⟩ : ParsedResultCard)],
        (bestVariationScore (generateNameVariations "ab") r.companyName).1 < MIN_MATCH_SCORE) ∧
      (findBestMatch "ab" [⟨"xy"⟩] MIN_MATCH_SCORE).match? = none ∧
      (findBestMatch "ab" [⟨"xy"⟩] MIN_MATCH_SCORE).allScores.length = 1 := by
  have h := claim_C3_threshold_gating "ab" [⟨"xy"⟩] MIN_MATCH_SCORE (by decide) (by decide)
  exact ⟨by decide, by decide, h.1, h.2.1⟩

/-- Scores accumulated by the variation fold never go below the running
value, which starts at zero. -/
theorem bestVariationScore_nonneg (vars : List String) (resultName : String) :
    0 ≤ (bestVariationScore vars resultName).1 := by
  rw [bestVariationScore]
  have key : ∀ (l : List String) (acc : ℚ × String), acc.1 ≤
      (l.foldl (fun acc variation =>
        let m := calculateMatchScore variation resultName
        if acc.1 < m.score then (m.score, m.matchType) else acc) acc).1 := by
    intro l
    induction l with
    | nil => intro acc; exact le_refl _
    | cons v vs ih =>
        intro acc
        rw [List.foldl_cons]
        refine le_trans ?_ (ih _)
        by_cases h : acc.1 < (calculateMatchScore v resultName).score
        · simp only [if_pos h]
          exact le_of_lt h
        · simp only [if_neg h]
          exact le_refl _
  exact key _ (0, "")

theorem le_foldr_max (q : ℚ) : ∀ (qs : List ℚ), q ∈ qs → q ≤ qs.foldr max 0 := by
  intro qs
  induction qs with
  | nil => intro h; simp at h
  | cons p ps ih =>
      intro h
      rw [List.foldr_cons]
      rcases List.mem_cons.mp h with h | h
      · rw [h]; exact le_max_left _ _
      · exact le_trans (ih h) (le_max_right _ _)

/-- Once the running best dominates every remaining candidate, the loop
never replaces it (replacement needs strict improvement). -/
theorem findBestMatchGo_keep (vars : List String) (minScore : ℚ) :
    ∀ (l : List ParsedResultCard) (best : Option ParsedResultCard) (bs : ℚ) (bt : String)
      (acc : List ScoredCandidate),
      (∀ r ∈ l, (bestVariationScore vars r.companyName).1 ≤ bs) →
      (findBestMatchGo vars minScore l best bs bt acc).1 = best := by
  intro l
  induction l with
  | nil => intro best bs bt acc _; rfl
  | cons r rest ih =>
      intro best bs bt acc hall
      rw [findBestMatchGo, if_neg]
      · exact ih best bs bt _ (fun r' hr' => hall r' (List.mem_cons_of_mem _ hr'))
      · rintro ⟨-, hgt⟩
        exact absurd hgt (not_lt.mpr (hall r (List.mem_cons_self r rest)))

/-- As long as the running best is strictly below the maximum remaining
score and that maximum clears the threshold, the loop returns the first
candidate attaining the maximum. -/
theorem findBestMatchGo_first_max (vars : List String) (minScore M : ℚ)
    (hM : minScore ≤ M) :
    ∀ (l : List ParsedResultCard) (best : Option ParsedResultCard) (bs : ℚ) (bt : String)
      (acc : List ScoredCandidate),
      0 ≤ bs → bs < M →
      (l.map (fun r => (bestVariationScore vars r.companyName).1)).foldr max 0 = M →
      (findBestMatchGo vars minScore l best bs bt acc).1 =
        l.find? (fun r => decide ((bestVariationScore vars r.companyName).1 = M)) := by
  intro l
  induction l with
  | nil =>
      intro best bs bt acc hbs0 hbs hmax
      exfalso
      simp only [List.map_nil, List.foldr_nil] at hmax
      rw [← hmax] at hbs
      exact absurd hbs (not_lt.mpr hbs0)
  | cons r rest ih =>
      intro best bs bt acc hbs0 hbs hmax
      simp only [List.map_cons, List.foldr_cons] at hmax
      by_cases hr : (bestVariationScore vars r.companyName).1 = M
      · rw [findBestMatchGo, if_pos ⟨by rw [hr]; exact hM, by rw [hr]; exact hbs⟩]
        rw [List.find?_cons_of_pos _ (by simp [hr])]
        apply findBestMatchGo_keep
        intro r' hr'
        rw [hr]
        rw [← hmax]
        refine le_trans (le_foldr_max _ _ ?_) (le_max_right _ _)
        exact List.mem_map_of_mem _ hr'
      · have hlt : (bestVariationScore vars r.companyName).1 < M := by
          have hle : (bestVariationScore vars r.companyName).1 ≤ M := by
            rw [← hmax]; exact le_max_left _ _
          exact lt_of_le_of_ne hle hr
        have hrest : (rest.map (fun r => (bestVariationScore vars r.companyName).1)).foldr max 0
            = M := by
          rcases max_choice (bestVariationScore vars r.companyName).1
            ((rest.map (fun r => (bestVariationScore vars r.companyName).1)).foldr max 0) with
            hc | hc <;> rw [hc] at hmax
          · exact absurd hmax hr
          · exact hmax
        rw [List.find?_cons_of_neg _ (by simp [hr]), findBestMatchGo]
        by_cases hcond : (bestVariationScore vars r.companyName).1 ≥ minScore ∧
            (bestVariationScore vars r.companyName).1 > bs
        · rw [if_pos hcond]
          exact ih (some r) _ _ _ (bestVariationScore_nonneg vars r.companyName) hlt hrest
        · rw [if_neg hcond]
          exact ih best bs bt _ hbs0 hbs hrest

/-- Counterexample for C4: with `minScore = 0`, query `"ab"` and the two
identical candidates `"xy"`, both candidates achieve the maximal
best-variation score 0, which is at (equal to) `minScore`, yet
resolution returns no best match at all rather than the first such
candidate: the running best starts at 0 and is only replaced on strict
improvement, so a tied maximal score of 0 is never adopted. -/
theorem claim_C4_counterexample :
    (bestVariationScore (generateNameVariations "ab") "xy").1 = 0 ∧
      (0 : ℚ) ≥ 0 ∧
      (findBestMatch "ab" [⟨"xy"⟩, ⟨"xy"⟩] 0).match? = none := by
  refine ⟨by decide, le_refl 0, by decide⟩

/-- C4 (amended): whenever the maximal best-variation score over the
candidates is at least `minScore` and strictly positive — in particular
whenever two or more candidates tie at such a maximal score — resolution
returns the first candidate in caller-supplied input order achieving
that maximum, because the running best is replaced only on strict score
improvement. -/
theorem claim_C4_tie_first (searchName : String) (results : List ParsedResultCard)
    (minScore : ℚ)
    (hm : minScore ≤ (results.map
      (fun r => (bestVariationScore (generateNameVariations searchName) r.companyName).1)).foldr max 0)
    (hpos : 0 < (results.map
      (fun r => (bestVariationScore (generateNameVariations searchName) r.companyName).1)).foldr max 0) :
    (findBestMatch searchName results minScore).match? =
      results.find? (fun r =>
        decide ((bestVariationScore (generateNameVariations searchName) r.companyName).1 =
          (results.map
            (fun r => (bestVariationScore (generateNameVariations searchName) r.companyName).1)).foldr max 0)) := by
  rw [findBestMatch_match?]
  exact findBestMatchGo_first_max (generateNameVariations searchName) minScore _ hm results
    none 0 "" [] le_rfl hpos rfl

/-- Witness for C4 (amended): query `"Acme"` with two identical
candidates `"Acme"` tied at the maximal score 1; the first one wins. -/
theorem claim_C4_tie_first_witness :
    MIN_MATCH_SCORE ≤ ([(⟨"Acme"⟩ : ParsedResultCard), ⟨"Acme"⟩].map
        (fun r => (bestVariationScore (generateNameVariations "Acme") r.companyName).1)).foldr max 0 ∧
      (0 : ℚ) < ([(⟨"Acme"⟩ : ParsedResultCard), ⟨"Acme"⟩].map
        (fun r => (bestVariationScore (generateNameVariations "Acme") r.companyName).1)).foldr max 0 ∧
      (findBestMatch "Acme" [⟨"Acme"⟩, ⟨"Acme"⟩] MIN_MATCH_SCORE).match? =
        [(⟨"Acme"⟩ : ParsedResultCard), ⟨"Acme"⟩].find? (fun r =>
          decide ((bestVariationScore (generateNameVariations "Acme") r.companyName).1 =
            ([(⟨"Acme"⟩ : ParsedResultCard), ⟨"Acme"⟩].map
              (fun r => (bestVariationScore (generateNameVariations "Acme") r.companyName).1)).foldr max 0)) :=
  ⟨by decide, by decide,
    claim_C4_tie_first "Acme" [⟨"Acme"⟩, ⟨"Acme"⟩] MIN_MATCH_SCORE (by decide) (by decide)⟩

/-! ## C5: the variation generator -/

theorem mem_setAdd_self (l : List String) (s : String) : s ∈ setAdd l s := by
  rw [setAdd]
  by_cases h : s ∈ l
  · rwa [if_pos h]
  · rw [if_neg h]
    simp

theorem mem_setAdd_of_mem {l : List String} {x : String} (h : x ∈ l) (s : String) :
    x ∈ setAdd l s := by
  rw [setAdd]
  by_cases hs : s ∈ l
  · rwa [if_pos hs]
  · rw [if_neg hs]
    exact List.mem_append_left _ h

theorem forall_setAdd {P : String → Prop} {l : List String} (hl : ∀ x ∈ l, P x) {s : String}
    (hs : P s) : ∀ x ∈ setAdd l s, P x := by
  intro x hx
  rw [setAdd] at hx
  by_cases hmem : s ∈ l
  · rw [if_pos hmem] at hx
    exact hl x hx
  · rw [if_neg hmem] at hx
    rcases List.mem_append.mp hx with hx | hx
    · exact hl x hx
    · rw [List.mem_singleton.mp hx]
      exact hs

theorem foldl_mem_mono {β : Type} (f : List String → β → List String)
    (hf : ∀ acc b x, x ∈ acc → x ∈ f acc b) :
    ∀ (bs : List β) (acc : List String) (x : String), x ∈ acc → x ∈ bs.foldl f acc := by
  intro bs
  induction bs with
  | nil => intro acc x hx; exact hx
  | cons b rest ih =>
      intro acc x hx
      exact ih (f acc b) x (hf acc b x hx)

theorem foldl_forall_pres {β : Type} (P : String → Prop) (f : List String → β → List String)
    (hf : ∀ (acc : List String) (b : β), b ∈ ([] : List β) ∨ True →
      (∀ x ∈ acc, P x) → ∀ x ∈ f acc b, P x) :
    ∀ (bs : List β) (acc : List String), (∀ x ∈ acc, P x) → ∀ x ∈ bs.foldl f acc, P x := by
  intro bs
  induction bs with
  | nil => intro acc h; exact h
  | cons b rest ih =>
      intro acc h
      exact ih (f acc b) (hf acc b (Or.inr trivial) h)

/-- A list with a non-whitespace character does not trim to nothing. -/
theorem jsTrim_ne_nil_of_nonspace {l : List Char} {c : Char} (hc : c ∈ l)
    (hns : isSpaceJS c = false) : jsTrim l ≠ [] := by
  intro htrim
  rw [jsTrim] at htrim
  have h1 : (l.dropWhile isSpaceJS).reverse.dropWhile isSpaceJS = [] := by
    have := congrArg List.reverse htrim
    simpa using this
  have hall : ∀ d ∈ (l.dropWhile isSpaceJS).reverse, isSpaceJS d = true :=
    List.dropWhile_eq_nil_iff.mp h1
  have hall2 : ∀ d ∈ l.dropWhile isSpaceJS, isSpaceJS d = true := by
    intro d hd
    exact hall d (List.mem_reverse.mpr hd)
  have hsplit : l.takeWhile isSpaceJS ++ l.dropWhile isSpaceJS = l :=
    List.takeWhile_append_dropWhile isSpaceJS l
  rcases List.mem_append.mp (hsplit ▸ hc) with hmem | hmem
  · have := List.mem_takeWhile_imp hmem
    rw [hns] at this
    exact Bool.false_ne_true this
  · have := hall2 c hmem
    rw [hns] at this
    exact Bool.false_ne_true this

theorem jsIncludes_length : ∀ (l sub : List Char), jsIncludes l sub = true → sub.length ≤ l.length := by
  intro l
  induction l with
  | nil =>
      intro sub h
      rw [jsIncludes] at h
      rw [List.isEmpty_iff.mp h]
  | cons c t ih =>
      intro sub h
      rw [jsIncludes, Bool.or_eq_true] at h
      rcases h with h | h
      · have := List.IsPrefix.length_le ( List.isPrefixOf_iff_prefix.mp h)
        simpa using this
      · have := ih sub h
        simp only [List.length_cons]
        omega

/-- Pieces produced by splitting on spaces contain no space. -/
theorem splitSp_no_space :
    ∀ (l cur : List Char), (' ' ∉ cur) → ∀ w ∈ splitSpAux cur l, ' ' ∉ w := by
  intro l
  induction l with
  | nil =>
      intro cur hcur w hw
      rw [splitSpAux, List.mem_singleton] at hw
      rw [hw]
      simpa using hcur
  | cons c cs ih =>
      intro cur hcur w hw
      rw [splitSpAux] at hw
      by_cases hc : c = ' '
      · rw [if_pos hc, List.mem_cons] at hw
        rcases hw with hw | hw
        · rw [hw]
          simpa using hcur
        · exact ih [] (by simp) w hw
      · rw [if_neg hc] at hw
        refine ih (c :: cur) ?_ w hw
        intro hmem
        rcases List.mem_cons.mp hmem with h | h
        · exact hc h.symm
        · exact hcur h

/-- Characters of split pieces come from the original list. -/
theorem splitSp_subset :
    ∀ (l cur : List Char), ∀ w ∈ splitSpAux cur l, ∀ c ∈ w, c ∈ cur ∨ c ∈ l := by
  intro l
  induction l with
  | nil =>
      intro cur w hw c hc
      rw [splitSpAux, List.mem_singleton] at hw
      rw [hw] at hc
      exact Or.inl (List.mem_reverse.mp hc)
  | cons x xs ih =>
      intro cur w hw c hc
      rw [splitSpAux] at hw
      by_cases hx : x = ' '
      · rw [if_pos hx, List.mem_cons] at hw
        rcases hw with hw | hw
        · rw [hw] at hc
          exact Or.inl (List.mem_reverse.mp hc)
        · rcases ih [] w hw c hc with h | h
          · simp at h
          · exact Or.inr (List.mem_cons_of_mem _ h)
      · rw [if_neg hx] at hw
        rcases ih (x :: cur) w hw c hc with h | h
        · rcases List.mem_cons.mp h with h | h
          · exact Or.inr (by simp [h])
          · exact Or.inl h
        · exact Or.inr (List.mem_cons_of_mem _ h)

/-- Every character of a joined word list is a character of a word or the
joining space. -/
theorem mem_joinSp :
    ∀ (ws : List (List Char)) (c : Char), c ∈ joinSp ws → (∃ w ∈ ws, c ∈ w) ∨ c = ' ' := by
  intro ws
  induction ws with
  | nil => intro c hc; simp [joinSp] at hc
  | cons w rest ih =>
      intro c hc
      cases rest with
      | nil =>
          simp only [joinSp] at hc
          exact Or.inl ⟨w, by simp, hc⟩
      | cons y ys =>
          rw [joinSp_cons_ne w (y :: ys) (by simp)] at hc
          rcases List.mem_append.mp hc with h | h
          · exact Or.inl ⟨w, by simp, h⟩
          · rcases List.mem_cons.mp h with h | h
            · exact Or.inr h
            · rcases ih c h with ⟨w', hw', hcw'⟩ | h'
              · exact Or.inl ⟨w', List.mem_cons_of_mem _ hw', hcw'⟩
              · exact Or.inr h'

/-- A character of a word occurs in the join of any list containing the
word. -/
theorem mem_joinSp_of_mem :
    ∀ (ws : List (List Char)) (w : List Char), w ∈ ws → ∀ c ∈ w, c ∈ joinSp ws := by
  intro ws
  induction ws with
  | nil => intro w hw; simp at hw
  | cons v rest ih =>
      intro w hw c hc
      rcases List.mem_cons.mp hw with h | h
      · cases rest with
        | nil => simpa [joinSp, ← h] using hc
        | cons y ys =>
            rw [joinSp_cons_ne v (y :: ys) (by simp)]
            rw [h] at hc
            exact List.mem_append_left _ hc
      · cases rest with
        | nil => simp at h
        | cons y ys =>
            rw [joinSp_cons_ne v (y :: ys) (by simp)]
            refine List.mem_append_right _ ?_
            exact List.mem_cons_of_mem _ (ih w h c hc)

theorem dataAppend (a b : String) : (a ++ b).data = a.data ++ b.data := rfl

/-- A string equals the empty string exactly when its data is empty. -/
theorem eq_empty_iff_data (s : String) : s = "" ↔ s.data = [] := by
  constructor
  · intro h; rw [h]
  · intro h; exact strExt h

/-- Plain global replacement with a pattern starting in whitespace keeps
a non-whitespace head character. -/
theorem replaceAllAux_head (pat repl : List Char) (p0 : Char) (hp : pat.head? = some p0)
    (hsp : isSpaceJS p0 = true) :
    ∀ (fuel : ℕ) (c : Char) (cs : List Char), isSpaceJS c = false →
      ∃ rest, replaceAllAux pat repl fuel (c :: cs) = c :: rest := by
  intro fuel c cs hc
  cases fuel with
  | zero => exact ⟨cs, rfl⟩
  | succ fuel =>
      rw [replaceAllAux, if_neg]
      · exact ⟨replaceAllAux pat repl fuel cs, rfl⟩
      · rintro ⟨-, hpre⟩
        cases pat with
        | nil => simp at hp
        | cons q qs =>
            simp only [List.head?_cons, Option.some.injEq] at hp
            simp only [List.isPrefixOf, Bool.and_eq_true, beq_iff_eq] at hpre
            rw [hpre.1] at hp
            rw [hp, hsp] at hc
            exact absurd hc (by simp)

/-- Word-boundary global replacement with a non-whitespace-headed
replacement keeps the output headed by a non-whitespace character. -/
theorem replaceWordAux_head (pat repl : List Char) (r0 : Char) (hr : repl.head? = some r0)
    (hns : isSpaceJS r0 = false) :
    ∀ (fuel : ℕ) (prev : Option Char) (c : Char) (cs : List Char), isSpaceJS c = false →
      ∃ d rest, replaceWordAux pat repl fuel prev (c :: cs) = d :: rest ∧ isSpaceJS d = false := by
  intro fuel prev c cs hc
  cases fuel with
  | zero => exact ⟨c, cs, rfl, hc⟩
  | succ fuel =>
      rw [replaceWordAux.eq_def]
      simp only []
      by_cases hcond : pat ≠ [] ∧ pat.isPrefixOf (c :: cs) ∧
          (match prev with | none => true | some p => !isWordChar p) = true ∧
          (match ((c :: cs).drop pat.length).head? with
            | none => true | some d => !isWordChar d) = true
      · rw [if_pos hcond]
        cases repl with
        | nil => simp at hr
        | cons r rs =>
            simp only [List.head?_cons, Option.some.injEq] at hr
            exact ⟨r, _, rfl, by rw [hr]; exact hns⟩
      · rw [if_neg hcond]
        exact ⟨c, replaceWordAux pat repl fuel (some c) cs, rfl, hc⟩

/-- The length of a string is the length of its character data. -/
theorem strLen (s : String) : s.length = s.data.length := by
  cases s; rfl

/-- Trimming a string twice is the same as trimming it once. -/
theorem jsTrimS_idem (s : String) : jsTrimS (jsTrimS s) = jsTrimS s := by
  apply strExt
  simp only [jsTrimS, dataMk, jsTrim_idem]

/-- The core name is already trimmed: trimming it again is a no-op. -/
theorem extractCoreName_trim_fix (x : String) :
    jsTrimS (extractCoreName x) = extractCoreName x := by
  apply strExt
  rw [jsTrimS, dataMk, extractCoreName_data, jsTrim_idem]

/-- Every whitespace character of a core name is a plain space. -/
theorem extractCoreName_spaces_blank (x : String) :
    ∀ c ∈ (extractCoreName x).data, isSpaceJS c = true → c = ' ' := by
  intro c hc hs
  rw [extractCoreName_data] at hc
  have hc1 : c ∈ (removeIgnorableWords (removeBusinessSuffixes (normalizeCompanyName x))).data :=
    (jsTrim_sublist _).subset hc
  rw [removeIgnorableWords_data] at hc1
  rcases mem_joinSp _ c hc1 with ⟨w, hw, hcw⟩ | h
  · have hw' : w ∈ splitSp (removeBusinessSuffixes (normalizeCompanyName x)).data :=
      List.mem_of_mem_filter hw
    rw [splitSp] at hw'
    have hc2 : c ∈ (removeBusinessSuffixes (normalizeCompanyName x)).data := by
      rcases splitSp_subset _ [] w hw' c hcw with h | h
      · simp at h
      · exact h
    have hc3 : c ∈ (normalizeCompanyName (normalizeCompanyName x)).data :=
      (removeBusinessSuffixes_pref (normalizeCompanyName x)).subset hc2
    rw [normalizeCompanyName_data] at hc3
    exact normalizeL_spaces_blank _ c hc3 hs
  · exact h

/-- A non-empty core name starts with a non-space character. -/
theorem extractCoreName_head (x : String) (c : Char) (cs : List Char)
    (h : (extractCoreName x).data = c :: cs) : isSpaceJS c = false := by
  apply jsTrim_head
    ((removeIgnorableWords (removeBusinessSuffixes (normalizeCompanyName x))).data) c
  rw [← extractCoreName_data, h]
  rfl

/-- A predicate preserved by every step of a fold over a fixed list holds
of every element of the result, given it holds of the seed. -/
theorem foldl_forall_mem {β : Type} (P : String → Prop) (f : List String → β → List String) :
    ∀ (bs : List β),
      (∀ (acc : List String) (b : β), b ∈ bs → (∀ x ∈ acc, P x) → ∀ x ∈ f acc b, P x) →
      ∀ (acc : List String), (∀ x ∈ acc, P x) → ∀ x ∈ bs.foldl f acc, P x := by
  intro bs
  induction bs with
  | nil =>
      intro _ acc hacc x hx
      simp only [List.foldl_nil] at hx
      exact hacc x hx
  | cons b rest ih =>
      intro hf acc hacc x hx
      simp only [List.foldl_cons] at hx
      exact ih (fun acc2 b2 hb2 => hf acc2 b2 (List.mem_cons_of_mem _ hb2))
        (f acc b) (hf acc b (by simp) hacc) x hx

/-- Elements of the first pool stage are trim-fixed, hence trim to a
non-empty string whenever they are non-empty. -/
theorem poolV2_trim_ne (cn : String) :
    ∀ v ∈ poolV2 cn, v.data ≠ [] → jsTrim v.data ≠ [] := by
  rw [poolV2]
  apply forall_setAdd
  · apply forall_setAdd
    · intro x hx; simp at hx
    · intro hne
      rw [jsTrimS, dataMk, jsTrim_idem]
      rwa [jsTrimS, dataMk] at hne
  · intro hne
    rw [extractCoreName_data, jsTrim_idem, ← extractCoreName_data]
    exact hne

/-- Suffix-augmented variations contain a non-space character, so the
second pool stage also trims to non-empty strings. -/
theorem poolV3_trim_ne (cn : String) :
    ∀ v ∈ poolV3 cn, v.data ≠ [] → jsTrim v.data ≠ [] := by
  rw [poolV3]
  have hsuf : ∀ s ∈ commonSuffixes, ∃ d ∈ s.data, isSpaceJS d = false := by decide
  apply foldl_forall_mem
  · intro acc suffix hb hacc
    obtain ⟨d, hd, hdns⟩ := hsuf suffix hb
    have h1 : ∀ (sep : String), d ∈ (extractCoreName cn ++ sep ++ suffix).data := by
      intro sep
      rw [dataAppend]
      exact List.mem_append_right _ hd
    apply forall_setAdd (forall_setAdd hacc ?_) ?_
    · intro _
      exact jsTrim_ne_nil_of_nonspace (h1 " ") hdns
    · intro _
      exact jsTrim_ne_nil_of_nonspace (h1 ", ") hdns
  · exact poolV2_trim_ne cn

/-- The and-to-ampersand swap keeps the core's non-space head, so the
third pool stage trims to non-empty strings. -/
theorem poolV4_trim_ne (cn : String) :
    ∀ v ∈ poolV4 cn, v.data ≠ [] → jsTrim v.data ≠ [] := by
  rw [poolV4]
  by_cases hinc : jsIncludes (extractCoreName cn).data " and ".data = true
  · rw [if_pos hinc]
    apply forall_setAdd (poolV3_trim_ne cn)
    intro _
    rw [dataMk]
    have hlen := jsIncludes_length _ _ hinc
    obtain ⟨c, cs, hcc⟩ : ∃ c cs, (extractCoreName cn).data = c :: cs := by
      cases h : (extractCoreName cn).data with
      | nil =>
          rw [h] at hlen
          exact absurd hlen (by decide)
      | cons c cs => exact ⟨c, cs, rfl⟩
    have hcns : isSpaceJS c = false := extractCoreName_head cn c cs hcc
    rw [replaceAllL, hcc]
    obtain ⟨rest, hrest⟩ := replaceAllAux_head " and ".data " & ".data ' ' rfl (by decide)
      ((c :: cs).length) c cs hcns
    rw [hrest]
    exact @jsTrim_ne_nil_of_nonspace (c :: rest) c (by simp) hcns
  · rw [if_neg hinc]
    exact poolV3_trim_ne cn

/-- The ampersand-to-and swap keeps the core's non-space head, so the
fourth pool stage trims to non-empty strings. -/
theorem poolV5_trim_ne (cn : String) :
    ∀ v ∈ poolV5 cn, v.data ≠ [] → jsTrim v.data ≠ [] := by
  rw [poolV5]
  by_cases hinc : jsIncludes (extractCoreName cn).data " & ".data = true
  · rw [if_pos hinc]
    apply forall_setAdd (poolV4_trim_ne cn)
    intro _
    rw [dataMk]
    have hlen := jsIncludes_length _ _ hinc
    obtain ⟨c, cs, hcc⟩ : ∃ c cs, (extractCoreName cn).data = c :: cs := by
      cases h : (extractCoreName cn).data with
      | nil =>
          rw [h] at hlen
          exact absurd hlen (by decide)
      | cons c cs => exact ⟨c, cs, rfl⟩
    have hcns : isSpaceJS c = false := extractCoreName_head cn c cs hcc
    rw [replaceAllL, hcc]
    obtain ⟨rest, hrest⟩ := replaceAllAux_head " & ".data " and ".data ' ' rfl (by decide)
      ((c :: cs).length) c cs hcns
    rw [hrest]
    exact @jsTrim_ne_nil_of_nonspace (c :: rest) c (by simp) hcns
  · rw [if_neg hinc]
    exact poolV4_trim_ne cn

/-- Abbreviation substitutions replace whole words by non-space-headed
words, so the fifth pool stage trims to non-empty strings. -/
theorem poolV6_trim_ne (cn : String) :
    ∀ v ∈ poolV6 cn, v.data ≠ [] → jsTrim v.data ≠ [] := by
  rw [poolV6]
  have habd : ∀ e ∈ abbreviationMap, ∀ ab ∈ e.2,
      ab.data ≠ [] ∧ isSpaceJS (ab.data.headD ' ') = false := by decide
  have habl : ∀ e ∈ abbreviationMap, 1 ≤ e.1.data.length := by decide
  apply foldl_forall_mem
  · intro acc entry hb hacc
    by_cases hinc : jsIncludes (extractCoreName cn).data entry.1.data = true
    · rw [if_pos hinc]
      apply foldl_forall_mem
      · intro acc2 ab hab hacc2
        apply forall_setAdd hacc2
        intro _
        rw [dataMk]
        have hlen := jsIncludes_length _ _ hinc
        obtain ⟨c, cs, hcc⟩ : ∃ c cs, (extractCoreName cn).data = c :: cs := by
          cases h : (extractCoreName cn).data with
          | nil =>
              rw [h] at hlen
              simp only [List.length_nil, Nat.le_zero] at hlen
              have h1 := habl entry hb
              omega
          | cons c cs => exact ⟨c, cs, rfl⟩
        have hcns : isSpaceJS c = false := extractCoreName_head cn c cs hcc
        obtain ⟨habne, habhd⟩ := habd entry hb ab hab
        obtain ⟨r, rs, hrdata⟩ : ∃ r rs, ab.data = r :: rs := by
          cases h : ab.data with
          | nil => exact absurd h habne
          | cons r rs => exact ⟨r, rs, rfl⟩
        have hrns : isSpaceJS r = false := by
          rw [hrdata] at habhd
          simpa using habhd
        rw [replaceWordL, hcc]
        obtain ⟨d, rest, hrest, hdns⟩ := replaceWordAux_head entry.1.data ab.data r
          (by rw [hrdata]; rfl) hrns ((c :: cs).length) none c cs hcns
        rw [hrest]
        exact @jsTrim_ne_nil_of_nonspace (d :: rest) d (by simp) hdns
      · exact hacc
    · rw [if_neg hinc]
      exact hacc
  · exact poolV5_trim_ne cn

/-- Word-prefix variations of long cores contain a non-space character of
the first word, so the whole pool trims non-empty members to non-empty
strings. -/
theorem variationPool_trim_ne (cn : String) :
    ∀ v ∈ variationPool cn, v.data ≠ [] → jsTrim v.data ≠ [] := by
  rw [variationPool]
  by_cases hw : ((splitSp (extractCoreName cn).data).filter (fun w => w.length > 1)).length > 3
  · rw [if_pos hw]
    obtain ⟨w0, ws, hwords⟩ : ∃ w0 ws,
        (splitSp (extractCoreName cn).data).filter (fun w => w.length > 1) = w0 :: ws := by
      cases h : (splitSp (extractCoreName cn).data).filter (fun w => w.length > 1) with
      | nil => rw [h] at hw; simp at hw
      | cons a b => exact ⟨a, b, rfl⟩
    have hw0mem : w0 ∈ (splitSp (extractCoreName cn).data).filter (fun w => w.length > 1) := by
      rw [hwords]; simp
    have hw0len : w0.length > 1 := by
      have h1 := List.of_mem_filter hw0mem
      simpa using h1
    have hw0sub : w0 ∈ splitSpAux [] (extractCoreName cn).data := by
      have h1 := List.mem_of_mem_filter hw0mem
      rwa [splitSp] at h1
    obtain ⟨ch, hch⟩ : ∃ ch, ch ∈ w0 := by
      cases w0 with
      | nil => simp at hw0len
      | cons a b => exact ⟨a, by simp⟩
    have hnospace : ' ' ∉ w0 := splitSp_no_space _ [] (by simp) w0 hw0sub
    have hchmem : ch ∈ (extractCoreName cn).data := by
      rcases splitSp_subset _ [] w0 hw0sub ch hch with h | h
      · simp at h
      · exact h
    have hchns : isSpaceJS ch = false := by
      by_contra hs
      rw [Bool.not_eq_false] at hs
      exact hnospace (extractCoreName_spaces_blank cn ch hchmem hs ▸ hch)
    apply forall_setAdd (forall_setAdd (poolV6_trim_ne cn) ?_) ?_
    · intro _
      rw [dataMk]
      apply @jsTrim_ne_nil_of_nonspace _ ch ?_ hchns
      apply mem_joinSp_of_mem _ w0 ?_ ch hch
      rw [hwords]
      simp
    · intro _
      rw [dataMk]
      apply @jsTrim_ne_nil_of_nonspace _ ch ?_ hchns
      apply mem_joinSp_of_mem _ w0 ?_ ch hch
      rw [hwords]
      simp
  · rw [if_neg hw]
    exact poolV6_trim_ne cn

/-- The trimmed original and the core name enter the pool at its first
stage. -/
theorem mem_poolV2 (cn : String) :
    jsTrimS cn ∈ poolV2 cn ∧ extractCoreName cn ∈ poolV2 cn := by
  rw [poolV2]
  constructor
  · exact mem_setAdd_of_mem (mem_setAdd_self _ _) _
  · exact mem_setAdd_self _ _

theorem poolV2_subset_poolV3 (cn : String) : ∀ x ∈ poolV2 cn, x ∈ poolV3 cn := by
  intro x hx
  rw [poolV3]
  exact foldl_mem_mono _ (fun acc b y hy => mem_setAdd_of_mem (mem_setAdd_of_mem hy _) _)
    commonSuffixes _ x hx

theorem poolV3_subset_poolV4 (cn : String) : ∀ x ∈ poolV3 cn, x ∈ poolV4 cn := by
  intro x hx
  rw [poolV4]
  by_cases h : jsIncludes (extractCoreName cn).data " and ".data = true
  · rw [if_pos h]
    exact mem_setAdd_of_mem hx _
  · rwa [if_neg h]

theorem poolV4_subset_poolV5 (cn : String) : ∀ x ∈ poolV4 cn, x ∈ poolV5 cn := by
  intro x hx
  rw [poolV5]
  by_cases h : jsIncludes (extractCoreName cn).data " & ".data = true
  · rw [if_pos h]
    exact mem_setAdd_of_mem hx _
  · rwa [if_neg h]

theorem poolV5_subset_poolV6 (cn : String) : ∀ x ∈ poolV5 cn, x ∈ poolV6 cn := by
  intro x hx
  rw [poolV6]
  apply foldl_mem_mono _ ?_ abbreviationMap _ x hx
  intro acc entry y hy
  by_cases h : jsIncludes (extractCoreName cn).data entry.1.data = true
  · rw [if_pos h]
    exact foldl_mem_mono _ (fun acc2 ab z hz => mem_setAdd_of_mem hz _) entry.2 acc y hy
  · rwa [if_neg h]

theorem poolV6_subset_variationPool (cn : String) : ∀ x ∈ poolV6 cn, x ∈ variationPool cn := by
  intro x hx
  rw [variationPool]
  by_cases h : ((splitSp (extractCoreName cn).data).filter (fun w => w.length > 1)).length > 3
  · rw [if_pos h]
    exact mem_setAdd_of_mem (mem_setAdd_of_mem hx _) _
  · rwa [if_neg h]

/-- The trimmed original and the core name survive every stage of the
pool. -/
theorem mem_variationPool (cn : String) :
    jsTrimS cn ∈ variationPool cn ∧ extractCoreName cn ∈ variationPool cn := by
  obtain ⟨h1, h2⟩ := mem_poolV2 cn
  constructor
  · exact poolV6_subset_variationPool cn _ (poolV5_subset_poolV6 cn _ (poolV4_subset_poolV5 cn _
      (poolV3_subset_poolV4 cn _ (poolV2_subset_poolV3 cn _ h1))))
  · exact poolV6_subset_variationPool cn _ (poolV5_subset_poolV6 cn _ (poolV4_subset_poolV5 cn _
      (poolV3_subset_poolV4 cn _ (poolV2_subset_poolV3 cn _ h2))))

/-- C5 counterexample: on the input "LLC" the variation set is not
duplicate-free (the entries are trimmed only after deduplication, so two
distinct set members collapse to the same string), and the core name,
which is empty here, is discarded by the final filter rather than
included. -/
theorem claim_C5_counterexample :
    ¬ (generateNameVariations "LLC").Nodup ∧
      extractCoreName "LLC" = "" ∧
      extractCoreName "LLC" ∉ generateNameVariations "LLC" := by decide

/-- C5 (corrected): for every raw name, every returned variation is a
non-empty string, and the returned collection contains the trimmed
original whenever that is non-empty and the core name whenever that is
non-empty; duplicate-freeness and the unconditional inclusions of the
original claim fail. -/
theorem claim_C5_variations (rawName : String) :
    (∀ v ∈ generateNameVariations rawName, v ≠ "") ∧
    (jsTrimS rawName ≠ "" → jsTrimS rawName ∈ generateNameVariations rawName) ∧
    (extractCoreName rawName ≠ "" → extractCoreName rawName ∈ generateNameVariations rawName) := by
  refine ⟨?_, ?_, ?_⟩
  · intro v hv
    rw [generateNameVariations] at hv
    obtain ⟨u, hu, huv⟩ := List.mem_map.mp hv
    obtain ⟨humem, hulen⟩ := List.mem_filter.mp hu
    have hlen : u.length > 0 := of_decide_eq_true hulen
    have hud : u.data ≠ [] := by
      intro hnil
      rw [strLen, hnil] at hlen
      simp at hlen
    have htrim := variationPool_trim_ne rawName u humem hud
    rw [← huv]
    intro heq
    rw [eq_empty_iff_data, jsTrimS, dataMk] at heq
    exact htrim heq
  · intro hne
    rw [generateNameVariations]
    have hmem := (mem_variationPool rawName).1
    have hlen : decide ((jsTrimS rawName).length > 0) = true := by
      apply decide_eq_true
      rw [strLen]
      exact List.length_pos.mpr (fun h => hne ((eq_empty_iff_data _).mpr h))
    have hfil : jsTrimS rawName ∈ (variationPool rawName).filter (fun v => v.length > 0) :=
      List.mem_filter.mpr ⟨hmem, hlen⟩
    have h2 : jsTrimS (jsTrimS rawName) ∈
        ((variationPool rawName).filter (fun v => v.length > 0)).map jsTrimS :=
      List.mem_map.mpr ⟨_, hfil, rfl⟩
    rwa [jsTrimS_idem] at h2
  · intro hne
    rw [generateNameVariations]
    have hmem := (mem_variationPool rawName).2
    have hlen : decide ((extractCoreName rawName).length > 0) = true := by
      apply decide_eq_true
      rw [strLen]
      exact List.length_pos.mpr (fun h => hne ((eq_empty_iff_data _).mpr h))
    have hfil : extractCoreName rawName ∈ (variationPool rawName).filter (fun v => v.length > 0) :=
      List.mem_filter.mpr ⟨hmem, hlen⟩
    have h2 : jsTrimS (extractCoreName rawName) ∈
        ((variationPool rawName).filter (fun v => v.length > 0)).map jsTrimS :=
      List.mem_map.mpr ⟨_, hfil, rfl⟩
    rwa [extractCoreName_trim_fix] at h2

/-- C5 witness: at the concrete name "Acme Co" both side conditions hold
and the trimmed original and the core name are both produced. -/
theorem claim_C5_variations_witness :
    jsTrimS "Acme Co" ≠ "" ∧ extractCoreName "Acme Co" ≠ "" ∧
    jsTrimS "Acme Co" ∈ generateNameVariations "Acme Co" ∧
    extractCoreName "Acme Co" ∈ generateNameVariations "Acme Co" :=
  ⟨by decide, by decide,
   (claim_C5_variations "Acme Co").2.1 (by decide),
   (claim_C5_variations "Acme Co").2.2 (by decide)⟩
